import Mathlib

/-!
Verification of the bridge-building program (src/main.c).

The program reads `n` islands and `m` candidate bridges, each bridge carrying a
cost in 1..10000 stored in an `int_fast16_t` whose bit 14 is set exactly on the
bridges owned by the red company.  It radix-sorts the bridges by this tagged
cost in increasing order, then walks the sorted array from the last element to
the first, greedily accepting every bridge whose endpoints lie in different
classes of a union-find structure, and accumulates the tag-free cost of each
accepted bridge into a per-color total.

This file is a shallow embedding of the algorithmic core:
  - `uf_find`, `uf_union_r`, `uf_init`  — the union-find structure;
  - `radix_sort_increasing`             — the distribution sort;
  - `kruskal_step`, `mst_accumulate`, `solve` — the accumulation loop.
C arrays are modelled as Lean lists; each C store `a[i] = v` becomes
`List.set`; reads out of range (undefined behaviour in C) read a harmless
default.  The `while` loop of `uf_find` can diverge on a corrupted parent
table, so it is embedded with explicit fuel and an `Option` result; the fuel
used by the embedding is the array length, and we prove that under the
union-find invariant this fuel is never exhausted.
-/

/-- An item of the union-find array (`struct uf_item` in main.c): a parent
index and a rank. -/
structure UFItem where
  parent : Nat
  rank : Nat
deriving DecidableEq, Repr

/-- Read `items[u]`.  Out-of-range access is undefined behaviour in the C
program; the model returns a self-rooted item, and every theorem that cares
carries an in-range hypothesis. -/
def ufGet (items : List UFItem) (u : Nat) : UFItem :=
  items.getD u ⟨u, 0⟩

/-- The parent map of a union-find array. -/
def parF (items : List UFItem) (u : Nat) : Nat :=
  (ufGet items u).parent

/-- The loop of `uf_find` (main.c lines 32-34).  `p` is the current value of
the local variable `item.parent`; the loop keeps replacing it by
`items[item.parent].parent` while `item.parent != u` and
`items[item.parent].parent != item.parent`.  The C loop can run forever on a
cyclic parent table, hence the fuel. -/
def uf_find_go (items : List UFItem) (u : Nat) : Nat → Nat → Option Nat
  | 0, p =>
    if p ≠ u ∧ parF items p ≠ p then none else some p
  | fuel + 1, p =>
    if p ≠ u ∧ parF items p ≠ p then uf_find_go items u fuel (parF items p)
    else some p

/-- The function `uf_find` of main.c (lines 30-36): starting from the local
copy `item = items[u]`, follow parent links and return the representative.
The body performs no store to the array, so the embedding is a pure function
of the array; `uf_find_st` below retains the array-in/array-out shape of the
C signature and is proved to agree. -/
def uf_find (items : List UFItem) (u : Nat) : Option Nat :=
  uf_find_go items u items.length (parF items u)

/-- State-threading version of the `uf_find` loop, mirroring the fact that the
C function receives the array by pointer and could in principle write to it:
the array is carried through every iteration of the loop.  Used to state the
frame property (the array is returned unchanged). -/
def uf_find_st_go (u : Nat) : Nat → Nat → List UFItem → Option (Nat × List UFItem)
  | 0, p, items =>
    if p ≠ u ∧ parF items p ≠ p then none else some (p, items)
  | fuel + 1, p, items =>
    if p ≠ u ∧ parF items p ≠ p then uf_find_st_go u fuel (parF items p) items
    else some (p, items)

/-- State-threading version of `uf_find`. -/
def uf_find_st (items : List UFItem) (u : Nat) : Option (Nat × List UFItem) :=
  uf_find_st_go u items.length (parF items u) items

/-- The function `uf_union_r` of main.c (lines 44-53), translated store by
store: if `items[ur].rank < items[vr].rank` then `items[ur].parent = vr`;
otherwise `items[vr].parent = ur`, and if the ranks are equal
`items[ur].rank++`.  The rank comparison in the second branch happens after
the store to `items[vr].parent`, which leaves both ranks unchanged, and the
model performs its reads on the updated list accordingly. -/
def uf_union_r (items : List UFItem) (ur vr : Nat) : List UFItem :=
  if (ufGet items ur).rank < (ufGet items vr).rank then
    items.set ur ⟨vr, (ufGet items ur).rank⟩
  else
    let items2 := items.set vr ⟨ur, (ufGet items vr).rank⟩
    if (ufGet items2 ur).rank = (ufGet items2 vr).rank then
      items2.set ur ⟨(ufGet items2 ur).parent, (ufGet items2 ur).rank + 1⟩
    else
      items2

/-- The initialization loop of `solve` (main.c lines 158-162): island `i` is
its own parent with rank 0. -/
def uf_init (n : Nat) : List UFItem :=
  (List.range n).map fun i => ⟨i, 0⟩

/-- The cost mask `BRIDGE_MASK_COST` (main.c line 63). -/
def BRIDGE_MASK_COST : Nat := 0x3FFF

/-- The red mark `BRIDGE_MARK_RED = 1 << 14` (main.c line 64). -/
def BRIDGE_MARK_RED : Nat := 1 <<< 14

/-- A bridge (`struct bridge` in main.c): two endpoints and the stored cost,
which may carry the red mark in bit 14.  The C field `from` is a Lean keyword
and is rendered `fr`; likewise `to` is rendered `toN`. -/
structure Bridge where
  fr : Nat
  toN : Nat
  cost : Nat
deriving DecidableEq, Repr

/-- `RADIX_BITS` (main.c line 76). -/
def RADIX_BITS : Nat := 8

/-- `RADIX_LEVELS = sizeof(int16_t) = 2` (main.c line 77). -/
def RADIX_LEVELS : Nat := 2

/-- `RADIX_SIZE = 1 << RADIX_BITS` (main.c line 78). -/
def RADIX_SIZE : Nat := 1 <<< RADIX_BITS

/-- `RADIX_MASK = RADIX_SIZE - 1` (main.c line 79). -/
def RADIX_MASK : Nat := RADIX_SIZE - 1

/-- The bucket selector of the radix pass (main.c line 136):
`(bridge.cost >> (l * RADIX_BITS)) & RADIX_MASK`. -/
def radix_queue (l : Nat) (b : Bridge) : Nat :=
  (b.cost >>> (l * RADIX_BITS)) &&& RADIX_MASK

/-- One pass of the distribution sort (main.c lines 131-143, for one value of
`l`).  `radix_compute_frequencies` counts, for each digit value `d`, the
bridges whose level-`l` digit is `d`; `radix_compute_indices` turns the counts
into starting offsets by a prefix sum, so that digit `d` owns the contiguous
block of the output starting at the total count of digits `< d`; the scatter
loop `to[indices[queue]++] = bridge` then writes the bridges with digit `d`
into that block in input order.  The resulting buffer is therefore exactly the
concatenation, over `d = 0, ..., RADIX_SIZE - 1` in increasing order, of the
input bridges whose digit is `d`, kept in input order, which is how the pass
is rendered here.  (Note: the C caller declares the offset table as
`int indices[RADIX_LEVELS]`, i.e. 2 entries, while `radix_compute_indices`
fills `RADIX_SIZE = 256` entries; the model gives the table its intended
size.) -/
def radix_pass (bs : List Bridge) (l : Nat) : List Bridge :=
  (List.range RADIX_SIZE).flatMap fun d => bs.filter fun b => radix_queue l b = d

/-- The function `radix_sort_increasing` of main.c (lines 122-146): nothing to
do for `m = 0`, otherwise one distribution pass per radix level; after the
even number (`RADIX_LEVELS = 2`) of buffer swaps the result is back in the
input array, so the final `memcpy` is not executed. -/
def radix_sort_increasing (bs : List Bridge) : List Bridge :=
  if bs.isEmpty then bs
  else (List.range RADIX_LEVELS).foldl radix_pass bs

/-- The result record of `solve` (`struct result` in main.c). -/
structure ResultT where
  red : Nat
  blue : Nat
deriving DecidableEq, Repr

/-- One iteration of the accumulation loop of `solve` (main.c lines 172-184):
find the representatives of the endpoints, and if they differ, union them and
add the bridge's cost to the matching total — masked with `BRIDGE_MASK_COST`
in the red branch (line 179), raw in the blue branch (line 181).  The result
is `none` exactly when a `uf_find` call would not terminate. -/
def kruskal_step (st : List UFItem × ResultT) (b : Bridge) : Option (List UFItem × ResultT) :=
  match uf_find st.1 b.fr, uf_find st.1 b.toN with
  | some fr, some tr =>
    if fr ≠ tr then
      let uf2 := uf_union_r st.1 fr tr
      if b.cost &&& BRIDGE_MARK_RED = BRIDGE_MARK_RED then
        some (uf2, ⟨st.2.red + (b.cost &&& BRIDGE_MASK_COST), st.2.blue⟩)
      else
        some (uf2, ⟨st.2.red, st.2.blue + b.cost⟩)
    else
      some st
  | _, _ => none

/-- The accumulation loop of `solve`, run over an explicitly given processing
sequence `es`, starting from the freshly initialized union-find structure and
zero totals.  `solve` instantiates `es` with the sorted bridge array traversed
from its last element to its first. -/
def mst_accumulate (n : Nat) (es : List Bridge) : Option ResultT :=
  (es.foldlM kruskal_step (uf_init n, ⟨0, 0⟩)).map fun st => st.2

/-- The function `solve` of main.c (lines 155-187): initialize the union-find
structure, radix-sort the bridges by tagged cost in increasing order, and run
the accumulation loop over the sorted array from index `m - 1` down to 0,
i.e. over the reversed sorted list. -/
def solve (n : Nat) (bs : List Bridge) : Option ResultT :=
  mst_accumulate n (radix_sort_increasing bs).reverse

/-- The tag-free cost of a bridge: the stored cost with the color-mark bit
stripped, as computed by `bridge.cost & BRIDGE_MASK_COST` in main.c. -/
def trueCost (b : Bridge) : Nat := b.cost &&& BRIDGE_MASK_COST

/-- The red test of main.c line 178. -/
def isRed (b : Bridge) : Bool := b.cost &&& BRIDGE_MARK_RED = BRIDGE_MARK_RED

/-- Sum of tag-free costs of a list of bridges. -/
def trueWeight (es : List Bridge) : Nat := (es.map trueCost).sum

/-- Sum of stored (tagged) costs of a list of bridges. -/
def taggedWeight (es : List Bridge) : Nat := (es.map Bridge.cost).sum

/-- A well-formed bridge for an instance with `n` islands, following the
spec's input contract: endpoints in `[0, n)`, true cost between 1 and 10000,
and the stored cost equal to the true cost with bit 14 set exactly on red
bridges (so bits 15 and above are clear). -/
def WFBridge (n : Nat) (b : Bridge) : Prop :=
  b.fr < n ∧ b.toN < n ∧
  1 ≤ b.cost &&& BRIDGE_MASK_COST ∧ b.cost &&& BRIDGE_MASK_COST ≤ 10000 ∧
  b.cost >>> 15 = 0

instance (n : Nat) (b : Bridge) : Decidable (WFBridge n b) := by
  unfold WFBridge; infer_instance

set_option maxRecDepth 8000

/-- A root of the union-find structure: a node that is its own parent. -/
def IsRoot (S : List UFItem) (r : Nat) : Prop := parF S r = r

instance (S : List UFItem) (r : Nat) : Decidable (IsRoot S r) := by
  unfold IsRoot; infer_instance

theorem ufGet_set_self (S : List UFItem) (u : Nat) (x : UFItem) (h : u < S.length) :
    ufGet (S.set u x) u = x := by
  simp [ufGet, List.getD, List.getElem?_set_eq_of_lt x h]

theorem ufGet_set_ne (S : List UFItem) (u v : Nat) (x : UFItem) (h : v ≠ u) :
    ufGet (S.set u x) v = ufGet S v := by
  have : u ≠ v := fun e => h e.symm
  simp [ufGet, List.getD, List.getElem?_set_ne this]

theorem length_uf_union_r (S : List UFItem) (ur vr : Nat) :
    (uf_union_r S ur vr).length = S.length := by
  unfold uf_union_r
  split
  · simp
  · simp only []
    split <;> simp


theorem count_filter_eq (a : Bridge) (l : List Bridge) (p : Bridge → Bool) :
    (l.filter p).count a = if p a then l.count a else 0 := by
  induction l with
  | nil => simp
  | cons x xs ih =>
    by_cases hx : p x
    · rw [List.filter_cons_of_pos hx]
      by_cases hax : x = a
      · subst hax
        simp [List.count_cons_self, ih, hx]
      · rw [List.count_cons_of_ne (fun e => hax e.symm), ih,
          List.count_cons_of_ne (fun e => hax e.symm)]
    · rw [List.filter_cons_of_neg (by simpa using hx), ih]
      by_cases hax : x = a
      · subst hax
        simp [hx]
      · rw [List.count_cons_of_ne (fun e => hax e.symm)]

theorem count_radix_buckets (bs : List Bridge) (q : Bridge → Nat) (a : Bridge) (N : Nat) :
    ((List.range N).flatMap fun d => bs.filter fun b => q b = d).count a =
      if q a < N then bs.count a else 0 := by
  induction N with
  | zero => simp
  | succ N ih =>
    have hr : List.range (N + 1) = List.range N ++ [N] := List.range_succ N
    rw [hr, List.flatMap_append, List.count_append, ih]
    have hsingle : (([N] : List Nat).flatMap fun d => bs.filter fun b => q b = d) =
        bs.filter fun b => q b = N := by simp
    rw [hsingle, count_filter_eq]
    by_cases h1 : q a < N
    · have h2 : q a ≠ N := Nat.ne_of_lt h1
      simp [h1, h2, Nat.lt_succ_of_lt h1]
    · by_cases h2 : q a = N
      · simp [h1, h2, Nat.lt_succ_self]
      · have h3 : ¬ q a < N + 1 := by omega
        simp [h1, h2, h3]

theorem radix_queue_lt (l : Nat) (b : Bridge) : radix_queue l b < RADIX_SIZE := by
  have h := Nat.and_le_right (n := b.cost >>> (l * RADIX_BITS)) (m := RADIX_MASK)
  have : RADIX_MASK < RADIX_SIZE := by decide
  unfold radix_queue
  omega

theorem radix_pass_perm (bs : List Bridge) (l : Nat) : (radix_pass bs l).Perm bs := by
  rw [List.perm_iff_count]
  intro a
  unfold radix_pass
  rw [count_radix_buckets bs (radix_queue l) a RADIX_SIZE]
  simp [radix_queue_lt l a]

theorem pairwise_radix_pass (bs : List Bridge) (l : Nat) (R : Bridge → Bridge → Prop)
    (h : bs.Pairwise R) :
    (radix_pass bs l).Pairwise fun x y =>
      radix_queue l x < radix_queue l y ∨ (radix_queue l x = radix_queue l y ∧ R x y) := by
  unfold radix_pass
  rw [List.flatMap_def, List.pairwise_flatten]
  constructor
  · intro t ht
    rw [List.mem_map] at ht
    obtain ⟨d, _, rfl⟩ := ht
    have hsub : (bs.filter fun b => radix_queue l b = d).Pairwise R :=
      h.sublist (List.filter_sublist bs)
    refine hsub.imp_of_mem ?_
    intro x y hx hy hr
    have hxq : radix_queue l x = d := by simpa using (List.mem_filter.mp hx).2
    have hyq : radix_queue l y = d := by simpa using (List.mem_filter.mp hy).2
    exact Or.inr ⟨hxq.trans hyq.symm, hr⟩
  · have hlt : (List.range RADIX_SIZE).Pairwise (· < ·) := List.pairwise_lt_range RADIX_SIZE
    refine (List.pairwise_map.mpr ?_)
    refine hlt.imp_of_mem ?_
    intro d₁ d₂ _ _ hd x hx y hy
    have hxq : radix_queue l x = d₁ := by simpa using (List.mem_filter.mp hx).2
    have hyq : radix_queue l y = d₂ := by simpa using (List.mem_filter.mp hy).2
    exact Or.inl (by omega)

theorem pairwise_true_of_list (l : List Bridge) : l.Pairwise fun _ _ => True := by
  induction l with
  | nil => exact List.Pairwise.nil
  | cons x xs ih => exact List.Pairwise.cons (fun _ _ => trivial) ih

theorem radix_queue_zero (b : Bridge) : radix_queue 0 b = b.cost % 256 := by
  show (b.cost >>> (0 * RADIX_BITS)) &&& RADIX_MASK = b.cost % 256
  have h1 : b.cost >>> (0 * RADIX_BITS) = b.cost := by norm_num
  rw [h1]
  have h2 : RADIX_MASK = 2 ^ 8 - 1 := by decide
  rw [h2, Nat.and_pow_two_sub_one_eq_mod]

theorem radix_queue_one (b : Bridge) (h : b.cost < 65536) : radix_queue 1 b = b.cost / 256 := by
  show (b.cost >>> (1 * RADIX_BITS)) &&& RADIX_MASK = b.cost / 256
  have h1 : b.cost >>> (1 * RADIX_BITS) = b.cost / 256 := by
    rw [Nat.shiftRight_eq_div_pow]
    have : 2 ^ (1 * RADIX_BITS) = 256 := by decide
    rw [this]
  rw [h1]
  have h2 : RADIX_MASK = 2 ^ 8 - 1 := by decide
  rw [h2, Nat.and_pow_two_sub_one_eq_mod]
  have : b.cost / 256 < 256 := by omega
  exact Nat.mod_eq_of_lt this

theorem cost_le_of_queues (x y : Bridge) (hx : x.cost < 65536) (hy : y.cost < 65536)
    (h : radix_queue 1 x < radix_queue 1 y ∨
      (radix_queue 1 x = radix_queue 1 y ∧ radix_queue 0 x ≤ radix_queue 0 y)) :
    x.cost ≤ y.cost := by
  rw [radix_queue_one x hx, radix_queue_one y hy] at h
  rw [radix_queue_zero, radix_queue_zero] at h
  rcases h with h | ⟨h1, h2⟩ <;> omega

theorem radix_sort_increasing_eq (bs : List Bridge) (h : ¬ bs.isEmpty) :
    radix_sort_increasing bs = radix_pass (radix_pass bs 0) 1 := by
  unfold radix_sort_increasing
  rw [if_neg h]
  have : List.range RADIX_LEVELS = [0, 1] := by decide
  rw [this]
  rfl

theorem radix_sort_increasing_perm (bs : List Bridge) :
    (radix_sort_increasing bs).Perm bs := by
  by_cases hb : bs.isEmpty
  · unfold radix_sort_increasing
    rw [if_pos hb]
  · rw [radix_sort_increasing_eq bs hb]
    exact (radix_pass_perm (radix_pass bs 0) 1).trans (radix_pass_perm bs 0)

theorem radix_sort_increasing_sorted (bs : List Bridge) (h : ∀ b ∈ bs, b.cost < 65536) :
    (radix_sort_increasing bs).Pairwise fun x y => x.cost ≤ y.cost := by
  by_cases hb : bs.isEmpty
  · unfold radix_sort_increasing
    rw [if_pos hb]
    rcases List.isEmpty_iff.mp hb with rfl
    exact List.Pairwise.nil
  · rw [radix_sort_increasing_eq bs hb]
    have p0 : (radix_pass bs 0).Pairwise fun x y =>
        radix_queue 0 x < radix_queue 0 y ∨ (radix_queue 0 x = radix_queue 0 y ∧ True) :=
      pairwise_radix_pass bs 0 _ (pairwise_true_of_list bs)
    have p0' : (radix_pass bs 0).Pairwise fun x y => radix_queue 0 x ≤ radix_queue 0 y := by
      refine p0.imp ?_
      rintro x y (h | ⟨h, -⟩)
      · exact Nat.le_of_lt h
      · exact Nat.le_of_eq h
    have p1 : (radix_pass (radix_pass bs 0) 1).Pairwise fun x y =>
        radix_queue 1 x < radix_queue 1 y ∨
          (radix_queue 1 x = radix_queue 1 y ∧ radix_queue 0 x ≤ radix_queue 0 y) :=
      pairwise_radix_pass (radix_pass bs 0) 1 _ p0'
    refine p1.imp_of_mem ?_
    intro x y hx hy hr
    have hmem : ∀ z ∈ radix_pass (radix_pass bs 0) 1, z.cost < 65536 := by
      intro z hz
      have : z ∈ bs :=
        ((radix_pass_perm (radix_pass bs 0) 1).trans (radix_pass_perm bs 0)).mem_iff.mp hz
      exact h z this
    exact cost_le_of_queues x y (hmem x hx) (hmem y hy) hr

theorem uf_find_st_go_eq (S : List UFItem) (u : Nat) :
    ∀ fuel p, uf_find_st_go u fuel p S = (uf_find_go S u fuel p).map fun r => (r, S) := by
  intro fuel
  induction fuel with
  | zero =>
    intro p
    show (if p ≠ u ∧ parF S p ≠ p then none else some (p, S)) =
      (if p ≠ u ∧ parF S p ≠ p then none else some p).map fun r => (r, S)
    split <;> rfl
  | succ f ih =>
    intro p
    show (if p ≠ u ∧ parF S p ≠ p then uf_find_st_go u f (parF S p) S else some (p, S)) =
      (if p ≠ u ∧ parF S p ≠ p then uf_find_go S u f (parF S p) else some p).map fun r => (r, S)
    split
    · exact ih (parF S p)
    · rfl

theorem uf_find_st_eq (S : List UFItem) (u : Nat) :
    uf_find_st S u = (uf_find S u).map fun r => (r, S) :=
  uf_find_st_go_eq S u S.length (parF S u)

/-- Helper for iterated parent chains: all iterates stay in range. -/
theorem iterate_parF_lt (S : List UFItem) (hin : ∀ v < S.length, parF S v < S.length)
    (u : Nat) (hu : u < S.length) : ∀ k, (parF S)^[k] u < S.length := by
  intro k
  induction k with
  | zero => exact hu
  | succ k ih =>
    rw [Function.iterate_succ_apply']
    exact hin _ ih

/-- A node u finds representative r when r is a root reachable from u along
parent links. -/
def FindsRoot (S : List UFItem) (u r : Nat) : Prop :=
  IsRoot S r ∧ ∃ k, (parF S)^[k] u = r

/-- The union-find invariant: parents are in range and every chain of parent
links reaches a root in finitely many steps. -/
def UFInv (S : List UFItem) : Prop :=
  (∀ u, u < S.length → parF S u < S.length) ∧
  (∀ u, u < S.length → ∃ k, IsRoot S ((parF S)^[k] u))

theorem FindsRoot.unique (S : List UFItem) (u r r' : Nat)
    (h : FindsRoot S u r) (h' : FindsRoot S u r') : r = r' := by
  obtain ⟨hr, k, hk⟩ := h
  obtain ⟨hr', k', hk'⟩ := h'
  rcases Nat.le_total k k' with hle | hle
  · obtain ⟨t, rfl⟩ := Nat.exists_eq_add_of_le hle
    rw [Nat.add_comm, Function.iterate_add_apply, hk, Function.iterate_fixed hr] at hk'
    exact hk'.symm ▸ rfl
  · obtain ⟨t, rfl⟩ := Nat.exists_eq_add_of_le hle
    rw [Nat.add_comm, Function.iterate_add_apply, hk', Function.iterate_fixed hr'] at hk
    exact hk ▸ rfl

theorem iterate_ne_of_lt_find (S : List UFItem) (u : Nat)
    (hex : ∃ k, IsRoot S ((parF S)^[k] u)) :
    ∀ i j, i < j → j ≤ Nat.find hex → (parF S)^[i] u ≠ (parF S)^[j] u := by
  intro i j hij hjle heq
  have hroot : IsRoot S ((parF S)^[Nat.find hex] u) := Nat.find_spec hex
  have hstep : (parF S)^[Nat.find hex - j + i] u = (parF S)^[Nat.find hex] u := by
    have h1 : (parF S)^[Nat.find hex - j + i] u = (parF S)^[Nat.find hex - j] ((parF S)^[i] u) :=
      Function.iterate_add_apply _ _ _ _
    have h2 : (parF S)^[Nat.find hex - j + j] u = (parF S)^[Nat.find hex - j] ((parF S)^[j] u) :=
      Function.iterate_add_apply _ _ _ _
    rw [h1, heq, ← h2]
    congr 1
    omega
  have hlt : Nat.find hex - j + i < Nat.find hex := by omega
  exact Nat.find_min hex hlt (hstep ▸ hroot)

theorem root_index_lt_length (S : List UFItem)
    (hin : ∀ v < S.length, parF S v < S.length) (u : Nat) (hu : u < S.length)
    (hex : ∃ k, IsRoot S ((parF S)^[k] u)) : Nat.find hex < S.length := by
  by_contra hge
  push_neg at hge
  have hinj : Set.InjOn (fun i => (parF S)^[i] u) (Finset.range (S.length + 1)) := by
    intro i hi j hj hij
    simp only [Finset.coe_range, Set.mem_Iio] at hi hj
    by_contra hne
    rcases Nat.lt_or_ge i j with h | h
    · exact iterate_ne_of_lt_find S u hex i j h (by omega) hij
    · have hji : j < i := by omega
      exact iterate_ne_of_lt_find S u hex j i hji (by omega) hij.symm
  have hmaps : ∀ i ∈ Finset.range (S.length + 1), (fun i => (parF S)^[i] u) i ∈ Finset.range S.length := by
    intro i _
    simpa using iterate_parF_lt S hin u hu i
  have := Finset.card_le_card_of_injOn _ hmaps hinj
  simp only [Finset.card_range] at this
  omega

theorem uf_find_go_self (S : List UFItem) (u : Nat) (fuel : Nat) :
    uf_find_go S u fuel u = some u := by
  cases fuel with
  | zero =>
    show (if u ≠ u ∧ parF S u ≠ u then none else some u) = some u
    simp
  | succ f =>
    show (if u ≠ u ∧ parF S u ≠ u then uf_find_go S u f (parF S u) else some u) = some u
    simp

theorem uf_find_go_spec (S : List UFItem) (u : Nat)
    (hin : ∀ v < S.length, parF S v < S.length) (hu : u < S.length)
    (hnr : ¬ IsRoot S u) (hex : ∃ k, IsRoot S ((parF S)^[k] u)) :
    ∀ fuel m, 1 ≤ m → m ≤ Nat.find hex → Nat.find hex - m ≤ fuel →
      uf_find_go S u fuel ((parF S)^[m] u) = some ((parF S)^[Nat.find hex] u) := by
  intro fuel
  induction fuel with
  | zero =>
    intro m h1 h2 h3
    have hm : m = Nat.find hex := by omega
    subst hm
    have hroot : IsRoot S ((parF S)^[Nat.find hex] u) := Nat.find_spec hex
    show (if (parF S)^[Nat.find hex] u ≠ u ∧ parF S ((parF S)^[Nat.find hex] u) ≠ (parF S)^[Nat.find hex] u
      then none else some ((parF S)^[Nat.find hex] u)) = some ((parF S)^[Nat.find hex] u)
    rw [if_neg]
    rintro ⟨-, hne⟩
    exact hne hroot
  | succ f ih =>
    intro m h1 h2 h3
    show (if (parF S)^[m] u ≠ u ∧ parF S ((parF S)^[m] u) ≠ (parF S)^[m] u
      then uf_find_go S u f (parF S ((parF S)^[m] u)) else some ((parF S)^[m] u)) =
      some ((parF S)^[Nat.find hex] u)
    by_cases hroot : IsRoot S ((parF S)^[m] u)
    · rw [if_neg (fun hc => hc.2 hroot)]
      have hfind_le : Nat.find hex ≤ m := Nat.find_le hroot
      have : m = Nat.find hex := by omega
      rw [this]
    · have hne_u : (parF S)^[m] u ≠ u := by
        intro heq
        have h0 : (parF S)^[0] u = u := rfl
        exact iterate_ne_of_lt_find S u hex 0 m (by omega) h2 (by rw [h0, heq])
      have hm_lt : m < Nat.find hex := by
        rcases Nat.lt_or_ge m (Nat.find hex) with h | h
        · exact h
        · have : m = Nat.find hex := by omega
          exact absurd (this ▸ Nat.find_spec hex) hroot
      rw [if_pos ⟨hne_u, fun hc => hroot hc⟩]
      have hstep : parF S ((parF S)^[m] u) = (parF S)^[m + 1] u :=
        (Function.iterate_succ_apply' (parF S) m u).symm
      rw [hstep]
      exact ih (m + 1) (by omega) (by omega) (by omega)

theorem uf_find_spec (S : List UFItem) (hInv : UFInv S) (u : Nat) (hu : u < S.length) :
    ∃ r, uf_find S u = some r ∧ FindsRoot S u r ∧ r < S.length := by
  by_cases hroot : IsRoot S u
  · refine ⟨u, ?_, ⟨hroot, 0, rfl⟩, hu⟩
    unfold uf_find
    have : parF S u = u := hroot
    rw [this]
    exact uf_find_go_self S u S.length
  · obtain ⟨hin, hreach⟩ := hInv
    have hex : ∃ k, IsRoot S ((parF S)^[k] u) := hreach u hu
    have hfl : Nat.find hex < S.length := root_index_lt_length S hin u hu hex
    refine ⟨(parF S)^[Nat.find hex] u, ?_, ⟨Nat.find_spec hex, Nat.find hex, rfl⟩,
      iterate_parF_lt S hin u hu _⟩
    unfold uf_find
    have h1 : parF S u = (parF S)^[1] u := (Function.iterate_one (parF S)) ▸ rfl
    rw [h1]
    have hfind_pos : 1 ≤ Nat.find hex := by
      rcases Nat.eq_zero_or_pos (Nat.find hex) with h | h
      · exact absurd (by have := Nat.find_spec hex; rwa [h] at this) hroot
      · exact h
    exact uf_find_go_spec S u hin hu hroot hex S.length 1 le_rfl hfind_pos (by omega)

theorem uf_find_eq_of_findsRoot (S : List UFItem) (hInv : UFInv S) (u r : Nat)
    (hu : u < S.length) (h : FindsRoot S u r) : uf_find S u = some r := by
  obtain ⟨r', hfind, hfr', -⟩ := uf_find_spec S hInv u hu
  rw [FindsRoot.unique S u r r' h hfr']
  exact hfind

/-- Two nodes have the same representative. -/
def sameRoot (S : List UFItem) (a b : Nat) : Prop :=
  ∃ r, FindsRoot S a r ∧ FindsRoot S b r

/-- The stored structure `S'` equals `S` with node `l` relinked to `w` (and
possibly rank changes, which the parent map does not see). -/
def Relinked (S S' : List UFItem) (l w : Nat) : Prop :=
  S'.length = S.length ∧ ∀ x, parF S' x = if x = l then w else parF S x

theorem parF_set_self (S : List UFItem) (u : Nat) (x : UFItem) (h : u < S.length) :
    parF (S.set u x) u = x.parent := by
  unfold parF
  rw [ufGet_set_self S u x h]

theorem parF_set_ne (S : List UFItem) (u v : Nat) (x : UFItem) (h : v ≠ u) :
    parF (S.set u x) v = parF S v := by
  unfold parF
  rw [ufGet_set_ne S u v x h]

theorem uf_union_r_relinked (S : List UFItem) (ur vr : Nat)
    (hur : ur < S.length) (hvr : vr < S.length) (hne : ur ≠ vr) :
    ∃ l w, ((l = ur ∧ w = vr) ∨ (l = vr ∧ w = ur)) ∧
      Relinked S (uf_union_r S ur vr) l w := by
  unfold uf_union_r
  by_cases hrk : (ufGet S ur).rank < (ufGet S vr).rank
  · rw [if_pos hrk]
    refine ⟨ur, vr, Or.inl ⟨rfl, rfl⟩, by simp, ?_⟩
    intro x
    by_cases hx : x = ur
    · rw [if_pos hx, hx, parF_set_self S ur _ hur]
    · rw [if_neg hx, parF_set_ne S ur x _ hx]
  · rw [if_neg hrk]
    simp only []
    have hget2ur : ufGet (S.set vr ⟨ur, (ufGet S vr).rank⟩) ur = ufGet S ur :=
      ufGet_set_ne S vr ur _ hne
    by_cases heq : (ufGet (S.set vr ⟨ur, (ufGet S vr).rank⟩) ur).rank =
        (ufGet (S.set vr ⟨ur, (ufGet S vr).rank⟩) vr).rank
    · rw [if_pos heq]
      refine ⟨vr, ur, Or.inr ⟨rfl, rfl⟩, by simp, ?_⟩
      intro x
      by_cases hxur : x = ur
      · rw [if_neg (by rw [hxur]; exact hne), hxur,
          parF_set_self _ ur _ (by simpa using hur)]
        show (ufGet (S.set vr ⟨ur, (ufGet S vr).rank⟩) ur).parent = parF S ur
        rw [hget2ur]
        rfl
      · by_cases hxvr : x = vr
        · rw [if_pos hxvr, hxvr, parF_set_ne _ ur vr _ (fun h => hne h.symm),
            parF_set_self S vr _ hvr]
        · rw [if_neg hxvr, parF_set_ne _ ur x _ hxur, parF_set_ne S vr x _ hxvr]
    · rw [if_neg heq]
      refine ⟨vr, ur, Or.inr ⟨rfl, rfl⟩, by simp, ?_⟩
      intro x
      by_cases hxvr : x = vr
      · rw [if_pos hxvr, hxvr, parF_set_self S vr _ hvr]
      · rw [if_neg hxvr, parF_set_ne S vr x _ hxvr]

theorem findsRoot_of_relinked (S S' : List UFItem) (l w : Nat)
    (hrel : Relinked S S' l w) (hlw : l ≠ w)
    (hlroot : IsRoot S l) (hwroot : IsRoot S w) (u r : Nat)
    (hfr : FindsRoot S u r) :
    FindsRoot S' u (if r = l then w else r) := by
  obtain ⟨hroot_r, k0, hk0⟩ := hfr
  have hex : ∃ k, IsRoot S ((parF S)^[k] u) := ⟨k0, by rw [hk0]; exact hroot_r⟩
  have hKroot : IsRoot S ((parF S)^[Nat.find hex] u) := Nat.find_spec hex
  have hKr : (parF S)^[Nat.find hex] u = r :=
    FindsRoot.unique S u _ r ⟨hKroot, Nat.find hex, rfl⟩ ⟨hroot_r, k0, hk0⟩
  have hne_l : ∀ i, i < Nat.find hex → (parF S)^[i] u ≠ l := by
    intro i hi h
    exact Nat.find_min hex hi (by rw [h]; exact hlroot)
  have haux : ∀ i, i ≤ Nat.find hex → (parF S')^[i] u = (parF S)^[i] u := by
    intro i
    induction i with
    | zero => intro _; rfl
    | succ i ih =>
      intro hle
      rw [Function.iterate_succ_apply', Function.iterate_succ_apply',
        ih (by omega), hrel.2, if_neg (hne_l i (by omega))]
  by_cases hrl : r = l
  · rw [if_pos hrl]
    refine ⟨?_, Nat.find hex + 1, ?_⟩
    · show parF S' w = w
      rw [hrel.2, if_neg (fun h => hlw h.symm)]
      exact hwroot
    · rw [Function.iterate_succ_apply', haux _ le_rfl, hKr, hrl, hrel.2, if_pos rfl]
  · rw [if_neg hrl]
    refine ⟨?_, Nat.find hex, ?_⟩
    · show parF S' r = r
      rw [hrel.2, if_neg hrl]
      exact hroot_r
    · rw [haux _ le_rfl, hKr]

theorem UFInv_of_relinked (S S' : List UFItem) (l w : Nat)
    (hrel : Relinked S S' l w) (hlw : l ≠ w)
    (hlroot : IsRoot S l) (hwroot : IsRoot S w) (hw_lt : w < S.length)
    (hInv : UFInv S) : UFInv S' := by
  constructor
  · intro x hx
    rw [hrel.1] at hx
    rw [hrel.1, hrel.2]
    by_cases h : x = l
    · rw [if_pos h]; exact hw_lt
    · rw [if_neg h]; exact hInv.1 x hx
  · intro u hu
    rw [hrel.1] at hu
    obtain ⟨hin, hreach⟩ := hInv
    have hex : ∃ k, IsRoot S ((parF S)^[k] u) := hreach u hu
    have hfr : FindsRoot S u ((parF S)^[Nat.find hex] u) := ⟨Nat.find_spec hex, Nat.find hex, rfl⟩
    obtain ⟨hroot', k, hk⟩ := findsRoot_of_relinked S S' l w hrel hlw hlroot hwroot u _ hfr
    exact ⟨k, by rw [hk]; exact hroot'⟩

theorem findsRoot_self_of_root (S : List UFItem) (r : Nat) (h : IsRoot S r) :
    FindsRoot S r r := ⟨h, 0, rfl⟩

theorem not_sameRoot_of_distinct_roots (S : List UFItem) (ur vr : Nat)
    (hur_root : IsRoot S ur) (hvr_root : IsRoot S vr) (hne : ur ≠ vr) :
    ¬ sameRoot S ur vr := by
  rintro ⟨r, h1, h2⟩
  have e1 : ur = r := FindsRoot.unique S ur ur r (findsRoot_self_of_root S ur hur_root) h1
  have e2 : vr = r := FindsRoot.unique S vr vr r (findsRoot_self_of_root S vr hvr_root) h2
  exact hne (e1.trans e2.symm)

theorem sameRoot_union_iff (S : List UFItem) (ur vr : Nat) (hInv : UFInv S)
    (hur : ur < S.length) (hvr : vr < S.length) (hne : ur ≠ vr)
    (hur_root : IsRoot S ur) (hvr_root : IsRoot S vr)
    (a b : Nat) (ha : a < S.length) (hb : b < S.length) :
    sameRoot (uf_union_r S ur vr) a b ↔
      (sameRoot S a b ∨ (FindsRoot S a ur ∧ FindsRoot S b vr) ∨
        (FindsRoot S a vr ∧ FindsRoot S b ur)) := by
  obtain ⟨l, w, hpair, hrel⟩ := uf_union_r_relinked S ur vr hur hvr hne
  have hlroot : IsRoot S l := by rcases hpair with ⟨h1, -⟩ | ⟨h1, -⟩ <;> rw [h1] <;> assumption
  have hwroot : IsRoot S w := by rcases hpair with ⟨-, h2⟩ | ⟨-, h2⟩ <;> rw [h2] <;> assumption
  have hlw : l ≠ w := by
    rcases hpair with ⟨h1, h2⟩ | ⟨h1, h2⟩ <;> rw [h1, h2]
    · exact hne
    · exact fun h => hne h.symm
  obtain ⟨ra, -, hfa, -⟩ := uf_find_spec S hInv a ha
  obtain ⟨rb, -, hfb, -⟩ := uf_find_spec S hInv b hb
  have hfa' := findsRoot_of_relinked S _ l w hrel hlw hlroot hwroot a ra hfa
  have hfb' := findsRoot_of_relinked S _ l w hrel hlw hlroot hwroot b rb hfb
  constructor
  · rintro ⟨r, h1, h2⟩
    have e1 : (if ra = l then w else ra) = r := FindsRoot.unique _ a _ r hfa' h1
    have e2 : (if rb = l then w else rb) = r := FindsRoot.unique _ b _ r hfb' h2
    have hphi : (if ra = l then w else ra) = (if rb = l then w else rb) := e1.trans e2.symm
    by_cases hal : ra = l <;> by_cases hbl : rb = l
    · left
      refine ⟨ra, hfa, ?_⟩
      rw [hal, ← hbl]
      exact hfb
    · rw [if_pos hal, if_neg hbl] at hphi
      rcases hpair with ⟨h1', h2'⟩ | ⟨h1', h2'⟩
      · right; left
        constructor
        · rw [← h1', ← hal]; exact hfa
        · rw [← h2', hphi]; exact hfb
      · right; right
        constructor
        · rw [← h1', ← hal]; exact hfa
        · rw [← h2', hphi]; exact hfb
    · rw [if_neg hal, if_pos hbl] at hphi
      rcases hpair with ⟨h1', h2'⟩ | ⟨h1', h2'⟩
      · right; right
        constructor
        · rw [← h2', ← hphi]; exact hfa
        · rw [← h1', ← hbl]; exact hfb
      · right; left
        constructor
        · rw [← h2', ← hphi]; exact hfa
        · rw [← h1', ← hbl]; exact hfb
    · rw [if_neg hal, if_neg hbl] at hphi
      left
      exact ⟨ra, hfa, by rw [hphi]; exact hfb⟩
  · intro h
    have hra_eq : ∀ x, FindsRoot S a x → ra = x := fun x hx => FindsRoot.unique S a ra x hfa hx
    have hrb_eq : ∀ x, FindsRoot S b x → rb = x := fun x hx => FindsRoot.unique S b rb x hfb hx
    have hphi : (if ra = l then w else ra) = (if rb = l then w else rb) := by
      rcases h with ⟨r, h1, h2⟩ | ⟨h1, h2⟩ | ⟨h1, h2⟩
      · rw [hra_eq r h1, hrb_eq r h2]
      · have e1 := hra_eq ur h1
        have e2 := hrb_eq vr h2
        rcases hpair with ⟨hl', hw'⟩ | ⟨hl', hw'⟩
        · rw [e1, e2, hl', if_pos rfl, if_neg (fun hc => hne hc.symm ), hw']
        · rw [e1, e2, hl', if_neg (fun hc => hne hc), if_pos rfl, hw']
      · have e1 := hra_eq vr h1
        have e2 := hrb_eq ur h2
        rcases hpair with ⟨hl', hw'⟩ | ⟨hl', hw'⟩
        · rw [e1, e2, hl', if_neg (fun hc => hne hc.symm), if_pos rfl, hw']
        · rw [e1, e2, hl', if_pos rfl, if_neg (fun hc => hne hc), hw']
    exact ⟨_, hfa', hphi ▸ hfb'⟩

theorem UFInv_uf_union_r (S : List UFItem) (ur vr : Nat) (hInv : UFInv S)
    (hur : ur < S.length) (hvr : vr < S.length) (hne : ur ≠ vr)
    (hur_root : IsRoot S ur) (hvr_root : IsRoot S vr) :
    UFInv (uf_union_r S ur vr) := by
  obtain ⟨l, w, hpair, hrel⟩ := uf_union_r_relinked S ur vr hur hvr hne
  have hlroot : IsRoot S l := by rcases hpair with ⟨h1, -⟩ | ⟨h1, -⟩ <;> rw [h1] <;> assumption
  have hwroot : IsRoot S w := by rcases hpair with ⟨-, h2⟩ | ⟨-, h2⟩ <;> rw [h2] <;> assumption
  have hlw : l ≠ w := by
    rcases hpair with ⟨h1, h2⟩ | ⟨h1, h2⟩ <;> rw [h1, h2]
    · exact hne
    · exact fun h => hne h.symm
  have hw_lt : w < S.length := by rcases hpair with ⟨-, h2⟩ | ⟨-, h2⟩ <;> rw [h2] <;> assumption
  exact UFInv_of_relinked S _ l w hrel hlw hlroot hwroot hw_lt hInv

/-- A bridge touches the unordered pair of islands a, b. -/
def touches (e : Bridge) (a b : Nat) : Prop :=
  (e.fr = a ∧ e.toN = b) ∨ (e.fr = b ∧ e.toN = a)

/-- One-step adjacency generated by a list of bridges. -/
def edgeRel (es : List Bridge) (a b : Nat) : Prop :=
  ∃ e ∈ es, touches e a b

/-- Connectivity: the equivalence closure of the adjacency of `es`. -/
def Conn (es : List Bridge) (a b : Nat) : Prop :=
  Relation.EqvGen (edgeRel es) a b

theorem Conn.refl (es : List Bridge) (a : Nat) : Conn es a a :=
  Relation.EqvGen.refl a

theorem Conn.symm (es : List Bridge) (a b : Nat) (h : Conn es a b) : Conn es b a :=
  Relation.EqvGen.symm a b h

theorem Conn.trans (es : List Bridge) (a b c : Nat) (h1 : Conn es a b) (h2 : Conn es b c) :
    Conn es a c :=
  Relation.EqvGen.trans a b c h1 h2

theorem conn_nil (a b : Nat) : Conn [] a b ↔ a = b := by
  constructor
  · intro h
    induction h with
    | rel x y hxy => obtain ⟨e, he, -⟩ := hxy; exact absurd he (List.not_mem_nil e)
    | refl x => rfl
    | symm x y _ ih => exact ih.symm
    | trans x y z _ _ ih1 ih2 => exact ih1.trans ih2
  · rintro rfl
    exact Conn.refl [] a

theorem conn_mono (es fs : List Bridge) (hsub : ∀ e ∈ es, e ∈ fs) (a b : Nat)
    (h : Conn es a b) : Conn fs a b := by
  refine Relation.EqvGen.mono ?_ h
  rintro x y ⟨e, he, ht⟩
  exact ⟨e, hsub e he, ht⟩

theorem conn_of_mem (es : List Bridge) (e : Bridge) (he : e ∈ es) :
    Conn es e.fr e.toN :=
  Relation.EqvGen.rel _ _ ⟨e, he, Or.inl ⟨rfl, rfl⟩⟩

theorem conn_cons_iff (e : Bridge) (es : List Bridge) (a b : Nat) :
    Conn (e :: es) a b ↔
      (Conn es a b ∨ (Conn es a e.fr ∧ Conn es e.toN b) ∨
        (Conn es a e.toN ∧ Conn es e.fr b)) := by
  constructor
  · intro h
    induction h with
    | rel x y hxy =>
      obtain ⟨f, hf, ht⟩ := hxy
      rcases List.mem_cons.mp hf with rfl | hf'
      · rcases ht with ⟨h1, h2⟩ | ⟨h1, h2⟩
        · right; left
          exact ⟨by rw [h1]; exact Conn.refl es x, by rw [h2]; exact Conn.refl es y⟩
        · right; right
          exact ⟨by rw [h2]; exact Conn.refl es x, by rw [h1]; exact Conn.refl es y⟩
      · left
        exact Relation.EqvGen.rel x y ⟨f, hf', ht⟩
    | refl x => left; exact Conn.refl es x
    | symm x y _ ih =>
      rcases ih with h | ⟨h1, h2⟩ | ⟨h1, h2⟩
      · left; exact Conn.symm es x y h
      · right; right
        exact ⟨Conn.symm es _ _ h2, Conn.symm es _ _ h1⟩
      · right; left
        exact ⟨Conn.symm es _ _ h2, Conn.symm es _ _ h1⟩
    | trans x y z _ _ ih1 ih2 =>
      rcases ih1 with h | ⟨h1, h2⟩ | ⟨h1, h2⟩ <;>
        rcases ih2 with h' | ⟨h1', h2'⟩ | ⟨h1', h2'⟩
      · left; exact Conn.trans es x y z h h'
      · right; left; exact ⟨Conn.trans es _ _ _ h h1', h2'⟩
      · right; right; exact ⟨Conn.trans es _ _ _ h h1', h2'⟩
      · right; left; exact ⟨h1, Conn.trans es _ _ _ h2 h'⟩
      · left
        have hto_fr : Conn es e.toN e.fr := Conn.trans es _ _ _ h2 h1'
        exact Conn.trans es _ _ _ h1 (Conn.trans es _ _ _ (Conn.symm es _ _ hto_fr) h2')
      · left
        exact Conn.trans es _ _ _ h1 h2'
      · right; right; exact ⟨h1, Conn.trans es _ _ _ h2 h'⟩
      · left
        exact Conn.trans es _ _ _ h1 h2'
      · left
        have hfr_to : Conn es e.fr e.toN := Conn.trans es _ _ _ h2 h1'
        exact Conn.trans es _ _ _ h1 (Conn.trans es _ _ _ (Conn.symm es _ _ hfr_to) h2')
  · intro h
    have hbase : Conn (e :: es) e.fr e.toN := conn_of_mem (e :: es) e (List.mem_cons_self e es)
    have hmono : ∀ x y, Conn es x y → Conn (e :: es) x y :=
      fun x y h => conn_mono es (e :: es) (fun f hf => List.mem_cons_of_mem e hf) x y h
    rcases h with h | ⟨h1, h2⟩ | ⟨h1, h2⟩
    · exact hmono a b h
    · exact Conn.trans _ _ _ _ (hmono a _ h1) (Conn.trans _ _ _ _ hbase (hmono _ b h2))
    · exact Conn.trans _ _ _ _ (hmono a _ h1)
        (Conn.trans _ _ _ _ (Conn.symm _ _ _ hbase) (hmono _ b h2))

/-- A list of bridges is a forest when each bridge, in list order (later
elements being earlier greedy acceptances), joins two islands not connected by
the bridges after it.  This is the standard inductive presentation of an
acyclic edge set. -/
inductive IsForest : List Bridge → Prop
  | nil : IsForest []
  | cons (e : Bridge) (es : List Bridge) : IsForest es → ¬ Conn es e.fr e.toN →
      IsForest (e :: es)

theorem length_uf_init (n : Nat) : (uf_init n).length = n := by
  simp [uf_init]

theorem parF_uf_init (n i : Nat) : parF (uf_init n) i = i := by
  by_cases h : i < n
  · simp [uf_init, parF, ufGet, List.getD, List.getElem?_map, List.getElem?_range h]
  · have hn : n ≤ i := by omega
    have : (List.range n)[i]? = none := List.getElem?_eq_none (by simpa using hn)
    simp [uf_init, parF, ufGet, List.getD, List.getElem?_map, this]

theorem UFInv_uf_init (n : Nat) : UFInv (uf_init n) := by
  constructor
  · intro u hu
    rw [length_uf_init] at hu
    rw [length_uf_init, parF_uf_init]
    exact hu
  · intro u _
    exact ⟨0, by show parF (uf_init n) u = u; exact parF_uf_init n u⟩

theorem findsRoot_uf_init (n u : Nat) : FindsRoot (uf_init n) u u :=
  ⟨parF_uf_init n u, 0, rfl⟩

theorem sameRoot_uf_init (n a b : Nat) : sameRoot (uf_init n) a b ↔ a = b := by
  constructor
  · rintro ⟨r, h1, h2⟩
    exact (FindsRoot.unique _ a a r (findsRoot_uf_init n a) h1).trans
      (FindsRoot.unique _ b b r (findsRoot_uf_init n b) h2).symm
  · rintro rfl
    exact ⟨a, findsRoot_uf_init n a, findsRoot_uf_init n a⟩

theorem sameRoot_symm (S : List UFItem) (a b : Nat) (h : sameRoot S a b) :
    sameRoot S b a := by
  obtain ⟨r, h1, h2⟩ := h
  exact ⟨r, h2, h1⟩

theorem findsRoot_iff_sameRoot (S : List UFItem) (a x r : Nat)
    (hfr : FindsRoot S x r) : (FindsRoot S a r ↔ sameRoot S a x) := by
  constructor
  · intro h
    exact ⟨r, h, hfr⟩
  · rintro ⟨r', h1, h2⟩
    rwa [FindsRoot.unique S x r r' hfr h2]

theorem uf_find_roots_eq_iff (S : List UFItem) (hInv : UFInv S) (a b : Nat)
    (ha : a < S.length) (hb : b < S.length) (ra rb : Nat)
    (hfa : uf_find S a = some ra) (hfb : uf_find S b = some rb) :
    (ra = rb ↔ sameRoot S a b) := by
  obtain ⟨r1, hf1, hFR1, -⟩ := uf_find_spec S hInv a ha
  obtain ⟨r2, hf2, hFR2, -⟩ := uf_find_spec S hInv b hb
  rw [hfa] at hf1
  rw [hfb] at hf2
  obtain rfl : ra = r1 := Option.some_inj.mp hf1
  obtain rfl : rb = r2 := Option.some_inj.mp hf2
  constructor
  · intro h
    exact ⟨ra, hFR1, h ▸ hFR2⟩
  · rintro ⟨r, h1, h2⟩
    exact (FindsRoot.unique S a ra r hFR1 h1).trans (FindsRoot.unique S b rb r hFR2 h2).symm

/-- Red contribution of a list of accepted bridges, as accumulated by the red
branch of the loop (masked cost). -/
def redAdd (es : List Bridge) : Nat :=
  ((es.filter fun b => isRed b).map trueCost).sum

/-- Blue contribution of a list of accepted bridges, as accumulated by the
blue branch of the loop (raw stored cost). -/
def blueAdd (es : List Bridge) : Nat :=
  ((es.filter fun b => ! isRed b).map fun b => b.cost).sum

theorem redAdd_append (es fs : List Bridge) : redAdd (es ++ fs) = redAdd es + redAdd fs := by
  simp [redAdd, List.filter_append]

theorem blueAdd_append (es fs : List Bridge) : blueAdd (es ++ fs) = blueAdd es + blueAdd fs := by
  simp [blueAdd, List.filter_append]

theorem redAdd_single_red (b : Bridge) (h : isRed b) : redAdd [b] = trueCost b := by
  simp [redAdd, List.filter, h]

theorem redAdd_single_blue (b : Bridge) (h : ¬ isRed b) : redAdd [b] = 0 := by
  simp [redAdd, List.filter, h]

theorem blueAdd_single_red (b : Bridge) (h : isRed b) : blueAdd [b] = 0 := by
  simp [blueAdd, List.filter, h]

theorem blueAdd_single_blue (b : Bridge) (h : ¬ isRed b) : blueAdd [b] = b.cost := by
  simp [blueAdd, List.filter, h]

theorem conn_comm (es : List Bridge) (a b : Nat) : Conn es a b ↔ Conn es b a :=
  ⟨Conn.symm es a b, Conn.symm es b a⟩

theorem kruskal_step_some (S : List UFItem) (res : ResultT) (b : Bridge) (ra rb : Nat)
    (hfa : uf_find S b.fr = some ra) (hfb : uf_find S b.toN = some rb) :
    kruskal_step (S, res) b =
      if ra ≠ rb then
        if b.cost &&& BRIDGE_MARK_RED = BRIDGE_MARK_RED then
          some (uf_union_r S ra rb, ⟨res.red + (b.cost &&& BRIDGE_MASK_COST), res.blue⟩)
        else some (uf_union_r S ra rb, ⟨res.red, res.blue + b.cost⟩)
      else some (S, res) := by
  unfold kruskal_step
  rw [hfa, hfb]

/-- Main specification of the accumulation loop: starting from any state
whose union-find structure simulates the connectivity of an accepted list `C`,
running the loop over a cost-nonincreasing sequence `es` succeeds and returns
the state extended by some newly accepted list `D`, which keeps the forest and
simulation invariants, accumulates per-color totals over `D`, and leaves each
processed bridge's endpoints connected through accepted bridges of cost at
least its own. -/
theorem mst_loop_spec (n : Nat) :
    ∀ (es : List Bridge) (S : List UFItem) (res : ResultT) (C : List Bridge),
      S.length = n → UFInv S →
      (∀ e ∈ es, e.fr < n ∧ e.toN < n) →
      es.Pairwise (fun a b => b.cost ≤ a.cost) →
      (∀ a b, a < n → b < n → (sameRoot S a b ↔ Conn C a b)) →
      IsForest C →
      (∀ c ∈ C, ∀ x ∈ es, x.cost ≤ c.cost) →
      ∃ (D : List Bridge) (S' : List UFItem) (res' : ResultT),
        es.foldlM kruskal_step (S, res) = some (S', res') ∧
        res'.red = res.red + redAdd D ∧
        res'.blue = res.blue + blueAdd D ∧
        S'.length = n ∧ UFInv S' ∧
        (∀ a b, a < n → b < n → (sameRoot S' a b ↔ Conn (D ++ C) a b)) ∧
        IsForest (D ++ C) ∧
        D.reverse.Sublist es ∧
        (∀ x ∈ es, Conn ((D ++ C).filter fun c => decide (x.cost ≤ c.cost)) x.fr x.toN) := by
  intro es
  induction es with
  | nil =>
    intro S res C hlen hInv hwf hsorted hsim hforest hkeys
    refine ⟨[], S, res, rfl, by simp [redAdd], by simp [blueAdd], hlen, hInv, ?_, ?_, by simp, by simp⟩
    · simpa using hsim
    · simpa using hforest
  | cons x rest ih =>
    intro S res C hlen hInv hwf hsorted hsim hforest hkeys
    obtain ⟨hxfr, hxto⟩ := hwf x (List.mem_cons_self x rest)
    have hxfr' : x.fr < S.length := by rw [hlen]; exact hxfr
    have hxto' : x.toN < S.length := by rw [hlen]; exact hxto
    obtain ⟨ra, hfa, hFRa, hra_lt⟩ := uf_find_spec S hInv x.fr hxfr'
    obtain ⟨rb, hfb, hFRb, hrb_lt⟩ := uf_find_spec S hInv x.toN hxto'
    have hstep := kruskal_step_some S res x ra rb hfa hfb
    rw [List.foldlM_cons]
    by_cases hdec : ra = rb
    · -- rejected bridge: endpoints already connected
      have hsame : sameRoot S x.fr x.toN :=
        (uf_find_roots_eq_iff S hInv x.fr x.toN hxfr' hxto' ra rb hfa hfb).mp hdec
      rw [hstep, if_neg (by simpa using hdec)]
      have hbind : (some (S, res) >>= fun st => rest.foldlM kruskal_step st) =
          rest.foldlM kruskal_step (S, res) := rfl
      rw [hbind]
      obtain ⟨D, S', res', hfold, hred, hblue, hlen', hInv', hsim', hforest', hsub', hspan'⟩ :=
        ih S res C hlen hInv (fun e he => hwf e (List.mem_cons_of_mem x he))
          (List.Pairwise.sublist (List.sublist_cons_self x rest) hsorted)
          hsim hforest
          (fun c hc y hy => hkeys c hc y (List.mem_cons_of_mem x hy))
      refine ⟨D, S', res', hfold, hred, hblue, hlen', hInv', hsim', hforest', hsub'.cons x, ?_⟩
      intro y hy
      rcases List.mem_cons.mp hy with rfl | hy'
      · -- the rejected bridge itself: already connected within C at its level
        have hconnC : Conn C y.fr y.toN := (hsim y.fr y.toN hxfr hxto).mp hsame
        refine conn_mono C _ ?_ y.fr y.toN hconnC
        intro e he
        refine List.mem_filter.mpr ⟨List.mem_append_right D he, ?_⟩
        simpa using hkeys e he y (List.mem_cons_self y rest)
      · exact hspan' y hy'
    · -- accepted bridge
      have hnsame : ¬ sameRoot S x.fr x.toN := fun h =>
        hdec ((uf_find_roots_eq_iff S hInv x.fr x.toN hxfr' hxto' ra rb hfa hfb).mpr h)
      have hnconn : ¬ Conn C x.fr x.toN := fun h => hnsame ((hsim x.fr x.toN hxfr hxto).mpr h)
      have hInv2 : UFInv (uf_union_r S ra rb) :=
        UFInv_uf_union_r S ra rb hInv hra_lt hrb_lt hdec hFRa.1 hFRb.1
      have hlen2 : (uf_union_r S ra rb).length = n := by
        rw [length_uf_union_r, hlen]
      have hsim2 : ∀ a b, a < n → b < n →
          (sameRoot (uf_union_r S ra rb) a b ↔ Conn (x :: C) a b) := by
        intro a b ha hb
        rw [sameRoot_union_iff S ra rb hInv hra_lt hrb_lt hdec hFRa.1 hFRb.1 a b
          (by rw [hlen]; exact ha) (by rw [hlen]; exact hb)]
        rw [conn_cons_iff]
        have e1 : sameRoot S a b ↔ Conn C a b := hsim a b ha hb
        have e2 : FindsRoot S a ra ↔ Conn C a x.fr :=
          (findsRoot_iff_sameRoot S a x.fr ra hFRa).trans (hsim a x.fr ha hxfr)
        have e3 : FindsRoot S b rb ↔ Conn C x.toN b :=
          ((findsRoot_iff_sameRoot S b x.toN rb hFRb).trans (hsim b x.toN hb hxto)).trans
            (conn_comm C b x.toN)
        have e4 : FindsRoot S a rb ↔ Conn C a x.toN :=
          (findsRoot_iff_sameRoot S a x.toN rb hFRb).trans (hsim a x.toN ha hxto)
        have e5 : FindsRoot S b ra ↔ Conn C x.fr b :=
          ((findsRoot_iff_sameRoot S b x.fr ra hFRa).trans (hsim b x.fr hb hxfr)).trans
            (conn_comm C b x.fr)
        exact or_congr e1 (or_congr (and_congr e2 e3) (and_congr e4 e5))
      have hforest2 : IsForest (x :: C) := IsForest.cons x C hforest hnconn
      have hkeys2 : ∀ c ∈ x :: C, ∀ y ∈ rest, y.cost ≤ c.cost := by
        intro c hc y hy
        rcases List.mem_cons.mp hc with rfl | hc'
        · exact (List.pairwise_cons.mp hsorted).1 y hy
        · exact hkeys c hc' y (List.mem_cons_of_mem x hy)
      have hwf2 : ∀ e ∈ rest, e.fr < n ∧ e.toN < n :=
        fun e he => hwf e (List.mem_cons_of_mem x he)
      have hsorted2 : rest.Pairwise fun a b => b.cost ≤ a.cost :=
        List.Pairwise.sublist (List.sublist_cons_self x rest) hsorted
      -- the new result record after this step
      by_cases hredx : x.cost &&& BRIDGE_MARK_RED = BRIDGE_MARK_RED
      · rw [hstep, if_pos (by simpa using hdec), if_pos hredx]
        have hbind : (some (uf_union_r S ra rb, (⟨res.red + (x.cost &&& BRIDGE_MASK_COST), res.blue⟩ : ResultT)) >>=
            fun st => rest.foldlM kruskal_step st) =
            rest.foldlM kruskal_step (uf_union_r S ra rb, ⟨res.red + (x.cost &&& BRIDGE_MASK_COST), res.blue⟩) := rfl
        rw [hbind]
        obtain ⟨D, S', res', hfold, hred, hblue, hlen', hInv', hsim', hforest', hsub', hspan'⟩ :=
          ih (uf_union_r S ra rb) ⟨res.red + (x.cost &&& BRIDGE_MASK_COST), res.blue⟩ (x :: C)
            hlen2 hInv2 hwf2 hsorted2 hsim2 hforest2 hkeys2
        have hxisred : isRed x := by simpa [isRed] using hredx
        have happ : (D ++ [x]) ++ C = D ++ (x :: C) := by
          rw [List.append_assoc]
          rfl
        refine ⟨D ++ [x], S', res', hfold, ?_, ?_, hlen', hInv', ?_, ?_, ?_, ?_⟩
        · rw [hred, redAdd_append, redAdd_single_red x hxisred]
          show res.red + (x.cost &&& BRIDGE_MASK_COST) + redAdd D =
            res.red + (redAdd D + trueCost x)
          unfold trueCost
          omega
        · rw [hblue, blueAdd_append, blueAdd_single_red x hxisred]
          show res.blue + blueAdd D = res.blue + (blueAdd D + 0)
          omega
        · intro a b ha hb
          rw [happ]
          exact hsim' a b ha hb
        · rw [happ]
          exact hforest'
        · rw [List.reverse_append]
          simpa using hsub'.cons₂ x
        · intro y hy
          rw [happ]
          rcases List.mem_cons.mp hy with rfl | hy'
          · refine conn_of_mem _ y (List.mem_filter.mpr ⟨?_, by simp⟩)
            exact List.mem_append_right D (List.mem_cons_self y C)
          · exact hspan' y hy'
      · rw [hstep, if_pos (by simpa using hdec), if_neg hredx]
        have hbind : (some (uf_union_r S ra rb, (⟨res.red, res.blue + x.cost⟩ : ResultT)) >>=
            fun st => rest.foldlM kruskal_step st) =
            rest.foldlM kruskal_step (uf_union_r S ra rb, ⟨res.red, res.blue + x.cost⟩) := rfl
        rw [hbind]
        obtain ⟨D, S', res', hfold, hred, hblue, hlen', hInv', hsim', hforest', hsub', hspan'⟩ :=
          ih (uf_union_r S ra rb) ⟨res.red, res.blue + x.cost⟩ (x :: C)
            hlen2 hInv2 hwf2 hsorted2 hsim2 hforest2 hkeys2
        have hxblue : ¬ isRed x := by simpa [isRed] using hredx
        have happ : (D ++ [x]) ++ C = D ++ (x :: C) := by
          rw [List.append_assoc]
          rfl
        refine ⟨D ++ [x], S', res', hfold, ?_, ?_, hlen', hInv', ?_, ?_, ?_, ?_⟩
        · rw [hred, redAdd_append, redAdd_single_blue x hxblue]
          show res.red + redAdd D = res.red + (redAdd D + 0)
          omega
        · rw [hblue, blueAdd_append, blueAdd_single_blue x hxblue]
          show res.blue + x.cost + blueAdd D = res.blue + (blueAdd D + x.cost)
          omega
        · intro a b ha hb
          rw [happ]
          exact hsim' a b ha hb
        · rw [happ]
          exact hforest'
        · rw [List.reverse_append]
          simpa using hsub'.cons₂ x
        · intro y hy
          rw [happ]
          rcases List.mem_cons.mp hy with rfl | hy'
          · refine conn_of_mem _ y (List.mem_filter.mpr ⟨?_, by simp⟩)
            exact List.mem_append_right D (List.mem_cons_self y C)
          · exact hspan' y hy'

theorem shiftRight15_eq_zero_iff (c : Nat) : c >>> 15 = 0 ↔ c < 32768 := by
  rw [Nat.shiftRight_eq_div_pow]
  have h : (2 : Nat) ^ 15 = 32768 := by norm_num
  rw [h]
  omega

theorem trueCost_eq_mod (b : Bridge) : trueCost b = b.cost % 16384 := by
  show b.cost &&& BRIDGE_MASK_COST = b.cost % 16384
  have h : BRIDGE_MASK_COST = 2 ^ 14 - 1 := by norm_num [BRIDGE_MASK_COST]
  rw [h, Nat.and_pow_two_sub_one_eq_mod]

theorem mark_red_iff (c : Nat) : c &&& BRIDGE_MARK_RED = BRIDGE_MARK_RED ↔ c / 16384 % 2 = 1 := by
  have h1 : BRIDGE_MARK_RED = 2 ^ 14 := by norm_num [BRIDGE_MARK_RED, Nat.shiftLeft_eq]
  rw [h1, Nat.and_two_pow, Nat.testBit_to_div_mod]
  have h2 : (2 : Nat) ^ 14 = 16384 := by norm_num
  by_cases h : c / 2 ^ 14 % 2 = 1
  · simp only [h, decide_eq_true_eq]
    rw [h2] at h
    simp [h]
  · simp only [decide_eq_false h]
    rw [h2] at h
    constructor
    · intro hc
      exact absurd (by omega : (0 : Nat) * 2 ^ 14 = 2 ^ 14 → False) (fun f => f (by simpa using hc))
    · intro hc
      exact absurd hc h

theorem blue_cost_eq_trueCost (b : Bridge) (h15 : b.cost >>> 15 = 0)
    (hblue : ¬ (b.cost &&& BRIDGE_MARK_RED = BRIDGE_MARK_RED)) : b.cost = trueCost b := by
  rw [trueCost_eq_mod]
  rw [shiftRight15_eq_zero_iff] at h15
  rw [mark_red_iff] at hblue
  omega

theorem red_cost_eq_trueCost_add (b : Bridge) (h15 : b.cost >>> 15 = 0)
    (hred : b.cost &&& BRIDGE_MARK_RED = BRIDGE_MARK_RED) : b.cost = trueCost b + 16384 := by
  rw [trueCost_eq_mod]
  rw [shiftRight15_eq_zero_iff] at h15
  rw [mark_red_iff] at hred
  omega

/-- Specification of `solve`: it returns the per-color totals accumulated over
an accepted list `D` that is an acyclic sub-multiset of the input, and every
input bridge's endpoints are connected by accepted bridges of tagged cost at
least its own. -/
theorem solve_spec (n : Nat) (bs : List Bridge)
    (hwf : ∀ b ∈ bs, b.fr < n ∧ b.toN < n) (hcost : ∀ b ∈ bs, b.cost < 65536) :
    ∃ (D : List Bridge) (res : ResultT),
      solve n bs = some res ∧
      res.red = redAdd D ∧ res.blue = blueAdd D ∧
      IsForest D ∧
      D.Subperm bs ∧
      (∀ x ∈ bs, Conn (D.filter fun c => decide (x.cost ≤ c.cost)) x.fr x.toN) := by
  have hperm : (radix_sort_increasing bs).Perm bs := radix_sort_increasing_perm bs
  have hmem_es : ∀ e, e ∈ (radix_sort_increasing bs).reverse ↔ e ∈ bs := by
    intro e
    rw [List.mem_reverse]
    exact hperm.mem_iff
  have hwf_es : ∀ e ∈ (radix_sort_increasing bs).reverse, e.fr < n ∧ e.toN < n :=
    fun e he => hwf e ((hmem_es e).mp he)
  have hsorted_es : ((radix_sort_increasing bs).reverse).Pairwise fun a b => b.cost ≤ a.cost := by
    rw [List.pairwise_reverse]
    exact radix_sort_increasing_sorted bs hcost
  have hsim0 : ∀ a b, a < n → b < n → (sameRoot (uf_init n) a b ↔ Conn [] a b) := by
    intro a b _ _
    rw [sameRoot_uf_init, conn_nil]
  obtain ⟨D, S', res', hfold, hred, hblue, -, -, -, hforest, hsub, hspan⟩ :=
    mst_loop_spec n (radix_sort_increasing bs).reverse (uf_init n) ⟨0, 0⟩ []
      (length_uf_init n) (UFInv_uf_init n) hwf_es hsorted_es hsim0 IsForest.nil
      (by intro c hc; exact absurd hc (List.not_mem_nil c))
  rw [List.append_nil] at hforest hspan
  refine ⟨D, res', ?_, by simpa using hred, by simpa using hblue, hforest, ?_, ?_⟩
  · show mst_accumulate n (radix_sort_increasing bs).reverse = some res'
    unfold mst_accumulate
    rw [hfold]
    rfl
  · have h1 : D.reverse.Subperm (radix_sort_increasing bs).reverse := hsub.subperm
    have h2 : D.Perm D.reverse := (List.reverse_perm D).symm
    have h3 : ((radix_sort_increasing bs).reverse).Perm bs :=
      (List.reverse_perm _).trans hperm
    exact (h2.subperm_right.mpr h1).trans h3.subperm
  · intro x hx
    exact hspan x ((hmem_es x).mpr hx)

theorem WFBridge.cost_lt (n : Nat) (b : Bridge) (h : WFBridge n b) : b.cost < 65536 := by
  have h15 := h.2.2.2.2
  rw [shiftRight15_eq_zero_iff] at h15
  omega

theorem blueAdd_eq_trueSum (es : List Bridge) (h : ∀ b ∈ es, b.cost >>> 15 = 0) :
    blueAdd es = ((es.filter fun b => ! isRed b).map trueCost).sum := by
  unfold blueAdd
  congr 1
  refine List.map_congr_left ?_
  intro b hb
  have hmem := (List.mem_filter.mp hb).1
  have hblue : ¬ (b.cost &&& BRIDGE_MARK_RED = BRIDGE_MARK_RED) := by
    have := (List.mem_filter.mp hb).2
    simpa [isRed] using this
  exact blue_cost_eq_trueCost b (h b hmem) hblue

/-- Weight of a list of bridges measured by an arbitrary per-bridge weight. -/
def weightBy (W : Bridge → Nat) (es : List Bridge) : Nat := (es.map W).sum

/-- `Wt` is the weight of a maximum-weight forest among the sub-multisets of
the candidate list `l`, with per-bridge weights `W`.  Since every candidate
has weight at least 1 in the problem domain, a maximum-weight forest is
exactly a maximum spanning forest of the multigraph described by `l`. -/
def IsMaxForestWeightBy (W : Bridge → Nat) (l : List Bridge) (Wt : Nat) : Prop :=
  (∃ A, A.Subperm l ∧ IsForest A ∧ weightBy W A = Wt) ∧
  (∀ B, B.Subperm l → IsForest B → weightBy W B ≤ Wt)

/-- Maximum-spanning-forest weight with respect to the true, tag-free costs. -/
def IsMaxTrueForestWeight (l : List Bridge) (Wt : Nat) : Prop :=
  IsMaxForestWeightBy trueCost l Wt

/-- Maximum-spanning-forest weight with respect to the stored, tagged costs. -/
def IsMaxTaggedForestWeight (l : List Bridge) (Wt : Nat) : Prop :=
  IsMaxForestWeightBy (fun b => b.cost) l Wt

/-- C1 (counterexample): with a red bridge of true cost 1 and a parallel blue
bridge of true cost 10000, the program keeps the red one (the tag makes every
red bridge sort above every blue bridge), so the returned totals sum to 1,
while the maximum spanning forest by true costs weighs 10000; hence the sum
of the totals is not the maximum true-cost forest weight. -/
theorem claim_C1_counterexample :
    solve 2 [⟨0, 1, 16385⟩, ⟨0, 1, 10000⟩] = some ⟨1, 0⟩ ∧
    (∀ b ∈ ([⟨0, 1, 16385⟩, ⟨0, 1, 10000⟩] : List Bridge), WFBridge 2 b) ∧
    ¬ IsMaxTrueForestWeight [⟨0, 1, 16385⟩, ⟨0, 1, 10000⟩] (1 + 0) := by
  refine ⟨by decide, by decide, ?_⟩
  rintro ⟨-, hub⟩
  have hforest : IsForest [⟨0, 1, 10000⟩] := by
    refine IsForest.cons _ [] IsForest.nil ?_
    show ¬ Conn [] (0 : Nat) 1
    rw [conn_nil]
    omega
  have hsub : ([⟨0, 1, 10000⟩] : List Bridge).Subperm [⟨0, 1, 16385⟩, ⟨0, 1, 10000⟩] :=
    (List.sublist_cons_self _ _).subperm
  have := hub [⟨0, 1, 10000⟩] hsub hforest
  have hw : weightBy trueCost [⟨0, 1, 10000⟩] = 10000 := by decide
  omega

/-- C4 (counterexample): a red and a blue bridge between the same two islands
with equal true cost 5; swapping them swaps which company keeps its bridge, so
the per-color totals differ between the two processing orders. -/
theorem claim_C4_counterexample :
    trueCost ⟨0, 1, 16389⟩ = trueCost ⟨0, 1, 5⟩ ∧
    ([(⟨0, 1, 16389⟩ : Bridge), ⟨0, 1, 5⟩]).Perm [⟨0, 1, 5⟩, ⟨0, 1, 16389⟩] ∧
    mst_accumulate 2 [⟨0, 1, 16389⟩, ⟨0, 1, 5⟩] = some ⟨5, 0⟩ ∧
    mst_accumulate 2 [⟨0, 1, 5⟩, ⟨0, 1, 16389⟩] = some ⟨0, 5⟩ ∧
    mst_accumulate 2 [⟨0, 1, 16389⟩, ⟨0, 1, 5⟩] ≠
      mst_accumulate 2 [⟨0, 1, 5⟩, ⟨0, 1, 16389⟩] := by
  refine ⟨by decide, ?_, by decide, by decide, by decide⟩
  exact List.Perm.swap _ _ _

/-- C2: the distribution sort returns a permutation of its input that is
non-decreasing in stored (tagged) cost, and does nothing on an empty input,
provided every tagged cost fits in 16 bits.  (The statement is about the
model of the pass with a full-size offset table; the C code under-allocates
the `indices` table, see the results log.) -/
theorem claim_C2_radix_sorts (bs : List Bridge) (h : ∀ b ∈ bs, b.cost < 65536) :
    (radix_sort_increasing bs).Perm bs ∧
    ((radix_sort_increasing bs).Pairwise fun x y => x.cost ≤ y.cost) ∧
    (bs = [] → radix_sort_increasing bs = bs) := by
  refine ⟨radix_sort_increasing_perm bs, radix_sort_increasing_sorted bs h, ?_⟩
  rintro rfl
  rfl

/-- Witness for C2 at a concrete input. -/
theorem claim_C2_radix_sorts_witness :
    (radix_sort_increasing [⟨0, 1, 16389⟩, ⟨1, 2, 3⟩]).Perm [⟨0, 1, 16389⟩, ⟨1, 2, 3⟩] ∧
    ((radix_sort_increasing [⟨0, 1, 16389⟩, ⟨1, 2, 3⟩]).Pairwise fun x y => x.cost ≤ y.cost) ∧
    (([(⟨0, 1, 16389⟩ : Bridge), ⟨1, 2, 3⟩]) = [] →
      radix_sort_increasing [⟨0, 1, 16389⟩, ⟨1, 2, 3⟩] = [⟨0, 1, 16389⟩, ⟨1, 2, 3⟩]) :=
  claim_C2_radix_sorts [⟨0, 1, 16389⟩, ⟨1, 2, 3⟩] (by decide)

/-- C5 (evaluation at the failing input): on the parent chain 0 → 1 → 2 the
find returns the root 2 but hands back the array unchanged: island 0 still
points at 1, not at its grandparent 2, so no path compression happened in the
stored structure. -/
theorem claim_C5_no_relink_eval :
    uf_find_st [⟨1, 0⟩, ⟨2, 1⟩, ⟨2, 2⟩] 0 =
      some (2, [⟨1, 0⟩, ⟨2, 1⟩, ⟨2, 2⟩]) ∧
    parF [⟨1, 0⟩, ⟨2, 1⟩, ⟨2, 2⟩] 0 = 1 := by
  decide

/-- C6: union by rank attaches the lower-rank root under the higher-rank one
leaving all ranks unchanged, and on equal ranks it attaches `vr` under `ur`
and bumps exactly the new root's rank; nothing else in the array changes. -/
theorem claim_C6_union_by_rank (S : List UFItem) (ur vr : Nat)
    (hur : ur < S.length) (hvr : vr < S.length) (hne : ur ≠ vr)
    (hur_root : IsRoot S ur) (hvr_root : IsRoot S vr) :
    ((ufGet S ur).rank < (ufGet S vr).rank →
      parF (uf_union_r S ur vr) ur = vr ∧
      (∀ i, (ufGet (uf_union_r S ur vr) i).rank = (ufGet S i).rank) ∧
      (∀ i, i ≠ ur → ufGet (uf_union_r S ur vr) i = ufGet S i)) ∧
    ((ufGet S vr).rank < (ufGet S ur).rank →
      parF (uf_union_r S ur vr) vr = ur ∧
      (∀ i, (ufGet (uf_union_r S ur vr) i).rank = (ufGet S i).rank) ∧
      (∀ i, i ≠ vr → ufGet (uf_union_r S ur vr) i = ufGet S i)) ∧
    ((ufGet S ur).rank = (ufGet S vr).rank →
      parF (uf_union_r S ur vr) vr = ur ∧
      (ufGet (uf_union_r S ur vr) ur).rank = (ufGet S ur).rank + 1 ∧
      parF (uf_union_r S ur vr) ur = parF S ur ∧
      (ufGet (uf_union_r S ur vr) vr).rank = (ufGet S vr).rank ∧
      (∀ i, i ≠ ur → i ≠ vr → ufGet (uf_union_r S ur vr) i = ufGet S i)) := by
  refine ⟨?_, ?_, ?_⟩
  · intro hlt
    have he : uf_union_r S ur vr = S.set ur ⟨vr, (ufGet S ur).rank⟩ := by
      unfold uf_union_r
      rw [if_pos hlt]
    rw [he]
    refine ⟨?_, ?_, ?_⟩
    · rw [parF_set_self S ur _ hur]
    · intro i
      by_cases hi : i = ur
      · rw [hi, ufGet_set_self S ur _ hur]
      · rw [ufGet_set_ne S ur i _ hi]
    · intro i hi
      rw [ufGet_set_ne S ur i _ hi]
  · intro hlt
    have hget2ur : ufGet (S.set vr ⟨ur, (ufGet S vr).rank⟩) ur = ufGet S ur :=
      ufGet_set_ne S vr ur _ hne
    have hget2vr : ufGet (S.set vr ⟨ur, (ufGet S vr).rank⟩) vr = ⟨ur, (ufGet S vr).rank⟩ :=
      ufGet_set_self S vr _ hvr
    have he : uf_union_r S ur vr = S.set vr ⟨ur, (ufGet S vr).rank⟩ := by
      unfold uf_union_r
      rw [if_neg (by omega)]
      simp only []
      rw [if_neg (by rw [hget2ur, hget2vr]; show ¬ (ufGet S ur).rank = (ufGet S vr).rank; omega)]
    rw [he]
    refine ⟨?_, ?_, ?_⟩
    · rw [parF_set_self S vr _ hvr]
    · intro i
      by_cases hi : i = vr
      · rw [hi, ufGet_set_self S vr _ hvr]
      · rw [ufGet_set_ne S vr i _ hi]
    · intro i hi
      rw [ufGet_set_ne S vr i _ hi]
  · intro heq
    have hget2ur : ufGet (S.set vr ⟨ur, (ufGet S vr).rank⟩) ur = ufGet S ur :=
      ufGet_set_ne S vr ur _ hne
    have hget2vr : ufGet (S.set vr ⟨ur, (ufGet S vr).rank⟩) vr = ⟨ur, (ufGet S vr).rank⟩ :=
      ufGet_set_self S vr _ hvr
    have hlen2 : (S.set vr ⟨ur, (ufGet S vr).rank⟩).length = S.length := by simp
    have he : uf_union_r S ur vr =
        (S.set vr ⟨ur, (ufGet S vr).rank⟩).set ur ⟨(ufGet S ur).parent, (ufGet S ur).rank + 1⟩ := by
      unfold uf_union_r
      rw [if_neg (by omega)]
      simp only []
      rw [if_pos (by rw [hget2ur, hget2vr]; show (ufGet S ur).rank = (ufGet S vr).rank; omega), hget2ur]
    rw [he]
    have hur2 : ur < (S.set vr ⟨ur, (ufGet S vr).rank⟩).length := by rw [hlen2]; exact hur
    refine ⟨?_, ?_, ?_, ?_, ?_⟩
    · rw [parF_set_ne _ ur vr _ (fun h => hne h.symm), parF_set_self S vr _ hvr]
    · rw [ufGet_set_self _ ur _ hur2]
    · rw [parF_set_self _ ur _ hur2]
      rfl
    · rw [ufGet_set_ne _ ur vr _ (fun h => hne h.symm), hget2vr]
    · intro i hiur hivr
      rw [ufGet_set_ne _ ur i _ hiur, ufGet_set_ne S vr i _ hivr]

/-- Witness for C6 on a concrete equal-rank union. -/
theorem claim_C6_union_by_rank_witness :
    parF (uf_union_r (uf_init 2) 0 1) 1 = 0 ∧
    (ufGet (uf_union_r (uf_init 2) 0 1) 0).rank = (ufGet (uf_init 2) 0).rank + 1 :=
  have h := claim_C6_union_by_rank (uf_init 2) 0 1 (by decide) (by decide) (by decide)
    (by decide) (by decide)
  ⟨(h.2.2 (by decide)).1, (h.2.2 (by decide)).2.1⟩

/-- C7: the disjoint-set structure keeps, from initialization, across unions
of two distinct in-range roots, and across finds (which do not modify the
array), the invariant that every island's parent chain reaches, in finitely
many steps, a node that is its own parent. -/
theorem claim_C7_chains_reach_roots :
    (∀ n, UFInv (uf_init n)) ∧
    (∀ S ur vr, UFInv S → ur < S.length → vr < S.length → ur ≠ vr →
      IsRoot S ur → IsRoot S vr → UFInv (uf_union_r S ur vr)) ∧
    (∀ S u r S', uf_find_st S u = some (r, S') → UFInv S → UFInv S') := by
  refine ⟨UFInv_uf_init, ?_, ?_⟩
  · intro S ur vr hInv h1 h2 h3 h4 h5
    exact UFInv_uf_union_r S ur vr hInv h1 h2 h3 h4 h5
  · intro S u r S' hst hInv
    rw [uf_find_st_eq] at hst
    cases hf : uf_find S u with
    | none =>
      rw [hf] at hst
      exact Option.noConfusion hst
    | some r2 =>
      rw [hf] at hst
      have hst' : ((r2 : Nat), S) = (r, S') := Option.some_inj.mp hst
      rw [Prod.ext_iff] at hst'
      have h2 : S = S' := hst'.2
      rw [← h2]
      exact hInv

/-- Witness for C7: the invariant after one union on the fresh structure. -/
theorem claim_C7_chains_reach_roots_witness : UFInv (uf_union_r (uf_init 2) 0 1) :=
  claim_C7_chains_reach_roots.2.1 (uf_init 2) 0 1
    (claim_C7_chains_reach_roots.1 2) (by decide) (by decide) (by decide)
    (by decide) (by decide)

/-- C10: a find call never modifies the array: the state-threading embedding
of `uf_find` returns the array it was given, and its result agrees with the
pure reading of the function. -/
theorem claim_C10_find_is_pure (S : List UFItem) (u r : Nat) (S' : List UFItem)
    (h : uf_find_st S u = some (r, S')) : S' = S ∧ uf_find S u = some r := by
  rw [uf_find_st_eq] at h
  cases hf : uf_find S u with
  | none =>
    rw [hf] at h
    exact Option.noConfusion h
  | some r2 =>
    rw [hf] at h
    have h' : ((r2 : Nat), S) = (r, S') := Option.some_inj.mp h
    rw [Prod.ext_iff] at h'
    refine ⟨h'.2.symm, ?_⟩
    have h2 : r2 = r := h'.1
    rw [h2]

/-- Witness for C10 at a concrete state. -/
theorem claim_C10_find_is_pure_witness :
    ([⟨1, 0⟩, ⟨2, 1⟩, ⟨2, 2⟩] : List UFItem) = [⟨1, 0⟩, ⟨2, 1⟩, ⟨2, 2⟩] ∧
    uf_find [⟨1, 0⟩, ⟨2, 1⟩, ⟨2, 2⟩] 0 = some 2 :=
  claim_C10_find_is_pure [⟨1, 0⟩, ⟨2, 1⟩, ⟨2, 2⟩] 0 2 [⟨1, 0⟩, ⟨2, 1⟩, ⟨2, 2⟩] (by decide)

/-- C8: on well-formed input the whole pipeline terminates with a result; in
the embedding the only partiality is the find loop's fuel, and it never runs
out. -/
theorem claim_C8_solve_total (n : Nat) (bs : List Bridge) (hn : 1 ≤ n)
    (hwf : ∀ b ∈ bs, b.fr < n ∧ b.toN < n) (hcost : ∀ b ∈ bs, b.cost < 65536) :
    ∃ res, solve n bs = some res := by
  obtain ⟨D, res, hsolve, -⟩ := solve_spec n bs hwf hcost
  exact ⟨res, hsolve⟩

/-- Witness for C8 on the spec's concrete scenario. -/
theorem claim_C8_solve_total_witness :
    ∃ res, solve 4 [⟨0, 1, 16389⟩, ⟨1, 2, 3⟩, ⟨2, 3, 16392⟩, ⟨0, 3, 1⟩] = some res :=
  claim_C8_solve_total 4 [⟨0, 1, 16389⟩, ⟨1, 2, 3⟩, ⟨2, 3, 16392⟩, ⟨0, 3, 1⟩]
    (by decide) (by decide) (by decide)

/-- C9: the spec's concrete scenario, 0-based: four islands, bridges
(0,1,cost 5,red), (1,2,cost 3,blue), (2,3,cost 8,red), (0,3,cost 1,blue),
with the red mark folded into the stored costs; the program returns
red = 13, blue = 3. -/
theorem claim_C9_concrete_scenario :
    solve 4 [⟨0, 1, 5 + 16384⟩, ⟨1, 2, 3⟩, ⟨2, 3, 8 + 16384⟩, ⟨0, 3, 1⟩] =
      some ⟨13, 3⟩ := by
  decide

/-- C3: each accepted bridge contributes exactly its tag-free cost: the step
function either leaves the state unchanged (cycle), or adds `cost & MASK` to
the red total, or adds the raw cost — which equals the tag-free cost for a
well-formed blue bridge — to the blue total; consequently `solve` returns, for
each color, the sum of tag-free costs of the accepted bridges of that color. -/
theorem claim_C3_totals_are_tag_free (n : Nat) (bs : List Bridge)
    (hwf : ∀ b ∈ bs, WFBridge n b) :
    (∀ (S S2 : List UFItem) (res res2 : ResultT) (b : Bridge),
      b.cost >>> 15 = 0 →
      kruskal_step (S, res) b = some (S2, res2) →
      (res2 = res ∧ S2 = S) ∨
      (isRed b = true ∧ res2.red = res.red + trueCost b ∧ res2.blue = res.blue) ∨
      (isRed b = false ∧ res2.blue = res.blue + trueCost b ∧ res2.red = res.red)) ∧
    (∃ (D : List Bridge) (res : ResultT), solve n bs = some res ∧
      D.Subperm bs ∧ IsForest D ∧
      res.red = ((D.filter fun b => isRed b).map trueCost).sum ∧
      res.blue = ((D.filter fun b => ! isRed b).map trueCost).sum) := by
  constructor
  · intro S S2 res res2 b h15 hstep
    cases hfa : uf_find S b.fr with
    | none =>
      unfold kruskal_step at hstep
      rw [hfa] at hstep
      cases hfb : uf_find S b.toN with
      | none => rw [hfb] at hstep; exact Option.noConfusion hstep
      | some rb => rw [hfb] at hstep; exact Option.noConfusion hstep
    | some ra =>
      cases hfb : uf_find S b.toN with
      | none =>
        unfold kruskal_step at hstep
        rw [hfa, hfb] at hstep
        exact Option.noConfusion hstep
      | some rb =>
        rw [kruskal_step_some S res b ra rb hfa hfb] at hstep
        by_cases hdec : ra ≠ rb
        · rw [if_pos hdec] at hstep
          by_cases hred : b.cost &&& BRIDGE_MARK_RED = BRIDGE_MARK_RED
          · rw [if_pos hred] at hstep
            have h' : (uf_union_r S ra rb, (⟨res.red + (b.cost &&& BRIDGE_MASK_COST), res.blue⟩ : ResultT)) = (S2, res2) :=
              Option.some_inj.mp hstep
            rw [Prod.ext_iff] at h'
            right; left
            have hres : res2 = ⟨res.red + (b.cost &&& BRIDGE_MASK_COST), res.blue⟩ := h'.2.symm
            exact ⟨by simpa [isRed] using hred, by rw [hres]; rfl, by rw [hres]⟩
          · rw [if_neg hred] at hstep
            have h' : (uf_union_r S ra rb, (⟨res.red, res.blue + b.cost⟩ : ResultT)) = (S2, res2) :=
              Option.some_inj.mp hstep
            rw [Prod.ext_iff] at h'
            right; right
            have hres : res2 = ⟨res.red, res.blue + b.cost⟩ := h'.2.symm
            refine ⟨by simpa [isRed] using hred, ?_, by rw [hres]⟩
            rw [hres]
            show res.blue + b.cost = res.blue + trueCost b
            rw [← blue_cost_eq_trueCost b h15 hred]
        · rw [if_neg hdec] at hstep
          have h' : (S, res) = (S2, res2) := Option.some_inj.mp hstep
          rw [Prod.ext_iff] at h'
          exact Or.inl ⟨h'.2.symm, h'.1.symm⟩
  · obtain ⟨D, res, hsolve, hred, hblue, hforest, hsub, -⟩ :=
      solve_spec n bs (fun b hb => ⟨(hwf b hb).1, (hwf b hb).2.1⟩)
        (fun b hb => WFBridge.cost_lt n b (hwf b hb))
    refine ⟨D, res, hsolve, hsub, hforest, hred, ?_⟩
    rw [hblue]
    exact blueAdd_eq_trueSum D (fun b hb => (hwf b (hsub.subset hb)).2.2.2.2)

/-- Witness for C3 on the spec's concrete scenario. -/
theorem claim_C3_totals_are_tag_free_witness :
    ∃ (D : List Bridge) (res : ResultT),
      solve 4 [⟨0, 1, 16389⟩, ⟨1, 2, 3⟩, ⟨2, 3, 16392⟩, ⟨0, 3, 1⟩] = some res ∧
      D.Subperm [⟨0, 1, 16389⟩, ⟨1, 2, 3⟩, ⟨2, 3, 16392⟩, ⟨0, 3, 1⟩] ∧ IsForest D ∧
      res.red = ((D.filter fun b => isRed b).map trueCost).sum ∧
      res.blue = ((D.filter fun b => ! isRed b).map trueCost).sum :=
  (claim_C3_totals_are_tag_free 4 [⟨0, 1, 16389⟩, ⟨1, 2, 3⟩, ⟨2, 3, 16392⟩, ⟨0, 3, 1⟩]
    (by decide)).2

/-- Two processing sequences differ only in the relative order of bridges of
equal stored (tagged) cost: the congruence closure of adjacent transpositions
of equal-cost bridges. -/
inductive TieReorder : List Bridge → List Bridge → Prop
  | refl (l : List Bridge) : TieReorder l l
  | cons (x : Bridge) (l₁ l₂ : List Bridge) : TieReorder l₁ l₂ →
      TieReorder (x :: l₁) (x :: l₂)
  | swap (x y : Bridge) (l : List Bridge) : x.cost = y.cost →
      TieReorder (x :: y :: l) (y :: x :: l)
  | trans (l₁ l₂ l₃ : List Bridge) : TieReorder l₁ l₂ → TieReorder l₂ l₃ →
      TieReorder l₁ l₃

theorem TieReorder.perm (l₁ l₂ : List Bridge) (h : TieReorder l₁ l₂) : l₁.Perm l₂ := by
  induction h with
  | refl l => exact List.Perm.refl l
  | cons x l₁ l₂ _ ih => exact ih.cons x
  | swap x y l _ => exact List.Perm.swap y x l
  | trans l₁ l₂ l₃ _ _ ih1 ih2 => exact ih1.trans ih2

/-- The totals update performed by the loop body on an accepted bridge. -/
def resAfter (e : Bridge) (res : ResultT) : ResultT :=
  if e.cost &&& BRIDGE_MARK_RED = BRIDGE_MARK_RED then
    ⟨res.red + (e.cost &&& BRIDGE_MASK_COST), res.blue⟩
  else
    ⟨res.red, res.blue + e.cost⟩

theorem resAfter_congr (e₁ e₂ : Bridge) (res : ResultT) (h : e₁.cost = e₂.cost) :
    resAfter e₁ res = resAfter e₂ res := by
  unfold resAfter
  rw [h]

theorem resAfter_comm (e₁ e₂ : Bridge) (res : ResultT) :
    resAfter e₁ (resAfter e₂ res) = resAfter e₂ (resAfter e₁ res) := by
  unfold resAfter
  split_ifs <;> simp <;> omega

/-- A union-find state together with the list of bridges accepted so far:
the state is well-formed and its partition is the connectivity of the list. -/
def Pack (n : Nat) (S : List UFItem) (C : List Bridge) : Prop :=
  S.length = n ∧ UFInv S ∧
  ∀ a b, a < n → b < n → (sameRoot S a b ↔ Conn C a b)

/-- Two accepted lists generating the same connectivity on the islands. -/
def ConnEquiv (n : Nat) (C₁ C₂ : List Bridge) : Prop :=
  ∀ a b, a < n → b < n → (Conn C₁ a b ↔ Conn C₂ a b)

theorem conn_perm (l₁ l₂ : List Bridge) (h : l₁.Perm l₂) (a b : Nat) :
    Conn l₁ a b ↔ Conn l₂ a b :=
  ⟨conn_mono l₁ l₂ (fun e he => h.mem_iff.mp he) a b,
   conn_mono l₂ l₁ (fun e he => h.mem_iff.mpr he) a b⟩

theorem connEquiv_cons (n : Nat) (C₁ C₂ : List Bridge) (e : Bridge)
    (h : ConnEquiv n C₁ C₂) (hfr : e.fr < n) (hto : e.toN < n) :
    ConnEquiv n (e :: C₁) (e :: C₂) := by
  intro a b ha hb
  rw [conn_cons_iff, conn_cons_iff]
  exact or_congr (h a b ha hb)
    (or_congr (and_congr (h a e.fr ha hfr) (h e.toN b hto hb))
      (and_congr (h a e.toN ha hto) (h e.fr b hfr hb)))

/-- One loop iteration from a packed state: the bridge is either rejected
(endpoints already connected, nothing changes) or accepted (the state merges
its endpoints' classes and the totals receive its contribution). -/
theorem kruskal_step_pack (n : Nat) (S : List UFItem) (C : List Bridge)
    (res : ResultT) (e : Bridge) (hPack : Pack n S C)
    (hfr : e.fr < n) (hto : e.toN < n) :
    (Conn C e.fr e.toN ∧ kruskal_step (S, res) e = some (S, res)) ∨
    (¬ Conn C e.fr e.toN ∧ ∃ S', kruskal_step (S, res) e = some (S', resAfter e res) ∧
      Pack n S' (e :: C)) := by
  obtain ⟨hlen, hInv, hsim⟩ := hPack
  have hfr' : e.fr < S.length := by rw [hlen]; exact hfr
  have hto' : e.toN < S.length := by rw [hlen]; exact hto
  obtain ⟨ra, hfa, hFRa, hra_lt⟩ := uf_find_spec S hInv e.fr hfr'
  obtain ⟨rb, hfb, hFRb, hrb_lt⟩ := uf_find_spec S hInv e.toN hto'
  have hstep := kruskal_step_some S res e ra rb hfa hfb
  by_cases hdec : ra = rb
  · left
    have hsame : sameRoot S e.fr e.toN :=
      (uf_find_roots_eq_iff S hInv e.fr e.toN hfr' hto' ra rb hfa hfb).mp hdec
    refine ⟨(hsim e.fr e.toN hfr hto).mp hsame, ?_⟩
    rw [hstep, if_neg (by simpa using hdec)]
  · right
    have hnsame : ¬ sameRoot S e.fr e.toN := fun h =>
      hdec ((uf_find_roots_eq_iff S hInv e.fr e.toN hfr' hto' ra rb hfa hfb).mpr h)
    refine ⟨fun h => hnsame ((hsim e.fr e.toN hfr hto).mpr h), uf_union_r S ra rb, ?_, ?_, ?_, ?_⟩
    · rw [hstep, if_pos (by simpa using hdec)]
      unfold resAfter
      split_ifs <;> rfl
    · rw [length_uf_union_r, hlen]
    · exact UFInv_uf_union_r S ra rb hInv hra_lt hrb_lt hdec hFRa.1 hFRb.1
    · intro a b ha hb
      rw [sameRoot_union_iff S ra rb hInv hra_lt hrb_lt hdec hFRa.1 hFRb.1 a b
        (by rw [hlen]; exact ha) (by rw [hlen]; exact hb)]
      rw [conn_cons_iff]
      have e1 : sameRoot S a b ↔ Conn C a b := hsim a b ha hb
      have e2 : FindsRoot S a ra ↔ Conn C a e.fr :=
        (findsRoot_iff_sameRoot S a e.fr ra hFRa).trans (hsim a e.fr ha hfr)
      have e3 : FindsRoot S b rb ↔ Conn C e.toN b :=
        ((findsRoot_iff_sameRoot S b e.toN rb hFRb).trans (hsim b e.toN hb hto)).trans
          (conn_comm C b e.toN)
      have e4 : FindsRoot S a rb ↔ Conn C a e.toN :=
        (findsRoot_iff_sameRoot S a e.toN rb hFRb).trans (hsim a e.toN ha hto)
      have e5 : FindsRoot S b ra ↔ Conn C e.fr b :=
        ((findsRoot_iff_sameRoot S b e.fr ra hFRa).trans (hsim b e.fr hb hfr)).trans
          (conn_comm C b e.fr)
      exact or_congr e1 (or_congr (and_congr e2 e3) (and_congr e4 e5))

/-- Running the loop over the same sequence from two states with the same
partition yields the same totals and states with the same partition. -/
theorem run_same (n : Nat) :
    ∀ (es : List Bridge) (S₁ : List UFItem) (C₁ : List Bridge)
      (S₂ : List UFItem) (C₂ : List Bridge) (res : ResultT),
      (∀ e ∈ es, e.fr < n ∧ e.toN < n) →
      Pack n S₁ C₁ → Pack n S₂ C₂ → ConnEquiv n C₁ C₂ →
      (∀ c ∈ C₁, c.fr < n ∧ c.toN < n) → (∀ c ∈ C₂, c.fr < n ∧ c.toN < n) →
      ∃ (S₁' : List UFItem) (C₁' : List Bridge) (S₂' : List UFItem)
        (C₂' : List Bridge) (res' : ResultT),
        es.foldlM kruskal_step (S₁, res) = some (S₁', res') ∧
        es.foldlM kruskal_step (S₂, res) = some (S₂', res') ∧
        Pack n S₁' C₁' ∧ Pack n S₂' C₂' ∧ ConnEquiv n C₁' C₂' ∧
        (∀ c ∈ C₁', c.fr < n ∧ c.toN < n) ∧ (∀ c ∈ C₂', c.fr < n ∧ c.toN < n) := by
  intro es
  induction es with
  | nil =>
    intro S₁ C₁ S₂ C₂ res hwf h1 h2 heq hwc1 hwc2
    exact ⟨S₁, C₁, S₂, C₂, res, rfl, rfl, h1, h2, heq, hwc1, hwc2⟩
  | cons x rest ih =>
    intro S₁ C₁ S₂ C₂ res hwf h1 h2 heq hwc1 hwc2
    obtain ⟨hxfr, hxto⟩ := hwf x (List.mem_cons_self x rest)
    have hwf' : ∀ e ∈ rest, e.fr < n ∧ e.toN < n :=
      fun e he => hwf e (List.mem_cons_of_mem x he)
    rw [List.foldlM_cons, List.foldlM_cons]
    rcases kruskal_step_pack n S₁ C₁ res x h1 hxfr hxto with ⟨hc1, hs1⟩ | ⟨hc1, S₁', hs1, hp1⟩
    · -- rejected in run 1, hence in run 2
      have hc2 : Conn C₂ x.fr x.toN := (heq x.fr x.toN hxfr hxto).mp hc1
      rcases kruskal_step_pack n S₂ C₂ res x h2 hxfr hxto with ⟨-, hs2⟩ | ⟨hc2', -, -, -⟩
      · rw [hs1, hs2]
        have hb1 : (some (S₁, res) >>= fun st => rest.foldlM kruskal_step st) =
            rest.foldlM kruskal_step (S₁, res) := rfl
        have hb2 : (some (S₂, res) >>= fun st => rest.foldlM kruskal_step st) =
            rest.foldlM kruskal_step (S₂, res) := rfl
        rw [hb1, hb2]
        exact ih S₁ C₁ S₂ C₂ res hwf' h1 h2 heq hwc1 hwc2
      · exact absurd hc2 hc2'
    · -- accepted in run 1, hence in run 2
      have hc2 : ¬ Conn C₂ x.fr x.toN := fun h => hc1 ((heq x.fr x.toN hxfr hxto).mpr h)
      rcases kruskal_step_pack n S₂ C₂ res x h2 hxfr hxto with ⟨hc2', -⟩ | ⟨-, S₂', hs2, hp2⟩
      · exact absurd hc2' hc2
      · rw [hs1, hs2]
        have hb1 : (some (S₁', resAfter x res) >>= fun st => rest.foldlM kruskal_step st) =
            rest.foldlM kruskal_step (S₁', resAfter x res) := rfl
        have hb2 : (some (S₂', resAfter x res) >>= fun st => rest.foldlM kruskal_step st) =
            rest.foldlM kruskal_step (S₂', resAfter x res) := rfl
        rw [hb1, hb2]
        have hwc1' : ∀ c ∈ x :: C₁, c.fr < n ∧ c.toN < n := by
          intro c hc
          rcases List.mem_cons.mp hc with rfl | hc'
          · exact ⟨hxfr, hxto⟩
          · exact hwc1 c hc'
        have hwc2' : ∀ c ∈ x :: C₂, c.fr < n ∧ c.toN < n := by
          intro c hc
          rcases List.mem_cons.mp hc with rfl | hc'
          · exact ⟨hxfr, hxto⟩
          · exact hwc2 c hc'
        exact ih S₁' (x :: C₁) S₂' (x :: C₂) (resAfter x res) hwf' hp1 hp2
          (connEquiv_cons n C₁ C₂ x heq hxfr hxto) hwc1' hwc2'

theorem connEquiv_of_packs (n : Nat) (S : List UFItem) (Ca Cb : List Bridge)
    (h1 : Pack n S Ca) (h2 : Pack n S Cb) : ConnEquiv n Ca Cb :=
  fun a b ha hb => ((h1.2.2 a b ha hb).symm).trans (h2.2.2 a b ha hb)

/-- Replacing the head bridge by another one whose endpoints fall in the same
two merged components yields the same connectivity. -/
theorem connEquiv_swap_edge (n : Nat) (C₁ C₂ : List Bridge) (e₁ e₂ : Bridge)
    (heq : ConnEquiv n C₁ C₂)
    (hf1 : e₁.fr < n) (ht1 : e₁.toN < n) (hf2 : e₂.fr < n) (ht2 : e₂.toN < n)
    (cross : (Conn C₁ e₂.fr e₁.fr ∧ Conn C₁ e₁.toN e₂.toN) ∨
      (Conn C₁ e₂.fr e₁.toN ∧ Conn C₁ e₁.fr e₂.toN)) :
    ConnEquiv n (e₁ :: C₁) (e₂ :: C₂) := by
  intro a b ha hb
  rw [conn_cons_iff, conn_cons_iff]
  have t2' : ∀ x y, x < n → y < n → (Conn C₂ x y ↔ Conn C₁ x y) :=
    fun x y hx hy => (heq x y hx hy).symm
  rw [t2' a b ha hb, t2' a e₂.fr ha hf2, t2' e₂.toN b ht2 hb,
    t2' a e₂.toN ha ht2, t2' e₂.fr b hf2 hb]
  rcases cross with ⟨u, v⟩ | ⟨u, v⟩
  · -- e₂.fr ~ e₁.fr and e₁.toN ~ e₂.toN
    refine or_congr Iff.rfl (or_congr (and_congr ⟨?_, ?_⟩ ⟨?_, ?_⟩) (and_congr ⟨?_, ?_⟩ ⟨?_, ?_⟩))
    · exact fun h => Conn.trans _ _ _ _ h (Conn.symm _ _ _ u)
    · exact fun h => Conn.trans _ _ _ _ h u
    · exact fun h => Conn.trans _ _ _ _ (Conn.symm _ _ _ v) h
    · exact fun h => Conn.trans _ _ _ _ v h
    · exact fun h => Conn.trans _ _ _ _ h v
    · exact fun h => Conn.trans _ _ _ _ h (Conn.symm _ _ _ v)
    · exact fun h => Conn.trans _ _ _ _ u h
    · exact fun h => Conn.trans _ _ _ _ (Conn.symm _ _ _ u) h
  · -- e₂.fr ~ e₁.toN and e₁.fr ~ e₂.toN
    constructor
    · rintro (h | ⟨ha', hb'⟩ | ⟨ha', hb'⟩)
      · exact Or.inl h
      · -- a ~ e₁.fr and e₁.toN ~ b: use e₁.fr ~ e₂.toN, e₂.fr ~ e₁.toN
        right; right
        exact ⟨Conn.trans _ _ _ _ ha' v, Conn.trans _ _ _ _ u hb'⟩
      · right; left
        exact ⟨Conn.trans _ _ _ _ ha' (Conn.symm _ _ _ u),
          Conn.trans _ _ _ _ (Conn.symm _ _ _ v) hb'⟩
    · rintro (h | ⟨ha', hb'⟩ | ⟨ha', hb'⟩)
      · exact Or.inl h
      · -- a ~ e₂.fr and e₂.toN ~ b
        right; right
        exact ⟨Conn.trans _ _ _ _ ha' u, Conn.trans _ _ _ _ v hb'⟩
      · right; left
        exact ⟨Conn.trans _ _ _ _ ha' (Conn.symm _ _ _ v),
          Conn.trans _ _ _ _ (Conn.symm _ _ _ u) hb'⟩

/-- One identical loop iteration performed on two states with the same
partition: the decisions agree, the totals updates agree, and the resulting
states again have the same partition. -/
theorem step_both (n : Nat) (S₁ : List UFItem) (C₁ : List Bridge)
    (S₂ : List UFItem) (C₂ : List Bridge) (res : ResultT) (e : Bridge)
    (h1 : Pack n S₁ C₁) (h2 : Pack n S₂ C₂) (heq : ConnEquiv n C₁ C₂)
    (hfr : e.fr < n) (hto : e.toN < n) :
    ∃ (S₁' : List UFItem) (C₁' : List Bridge) (S₂' : List UFItem)
      (C₂' : List Bridge) (res' : ResultT),
      kruskal_step (S₁, res) e = some (S₁', res') ∧
      kruskal_step (S₂, res) e = some (S₂', res') ∧
      Pack n S₁' C₁' ∧ Pack n S₂' C₂' ∧ ConnEquiv n C₁' C₂' ∧
      (∀ c, c ∈ C₁' → c ∈ C₁ ∨ c = e) ∧ (∀ c, c ∈ C₂' → c ∈ C₂ ∨ c = e) := by
  rcases kruskal_step_pack n S₁ C₁ res e h1 hfr hto with ⟨hc1, hs1⟩ | ⟨hc1, S₁', hs1, hp1⟩
  · rcases kruskal_step_pack n S₂ C₂ res e h2 hfr hto with ⟨-, hs2⟩ | ⟨hc2', -⟩
    · exact ⟨S₁, C₁, S₂, C₂, res, hs1, hs2, h1, h2, heq,
        fun c hc => Or.inl hc, fun c hc => Or.inl hc⟩
    · exact absurd ((heq e.fr e.toN hfr hto).mp hc1) hc2'
  · rcases kruskal_step_pack n S₂ C₂ res e h2 hfr hto with ⟨hc2', -⟩ | ⟨-, S₂', hs2, hp2⟩
    · exact absurd hc2' (fun h => hc1 ((heq e.fr e.toN hfr hto).mpr h))
    · refine ⟨S₁', e :: C₁, S₂', e :: C₂, resAfter e res, hs1, hs2, hp1, hp2,
        connEquiv_cons n C₁ C₂ e heq hfr hto, ?_, ?_⟩
      · intro c hc
        rcases List.mem_cons.mp hc with rfl | hc'
        · exact Or.inr rfl
        · exact Or.inl hc'
      · intro c hc
        rcases List.mem_cons.mp hc with rfl | hc'
        · exact Or.inr rfl
        · exact Or.inl hc'

/-- Processing two equal-cost bridges in either order from two states with the
same partition produces the same totals and states with the same partition. -/
theorem swap_core (n : Nat) (e₁ e₂ : Bridge) (hcost : e₁.cost = e₂.cost)
    (hf1 : e₁.fr < n) (ht1 : e₁.toN < n) (hf2 : e₂.fr < n) (ht2 : e₂.toN < n)
    (S₁ : List UFItem) (C₁ : List Bridge) (S₂ : List UFItem) (C₂ : List Bridge)
    (res : ResultT) (h1 : Pack n S₁ C₁) (h2 : Pack n S₂ C₂)
    (heq : ConnEquiv n C₁ C₂) :
    ∃ (S₁' : List UFItem) (C₁' : List Bridge) (S₂' : List UFItem)
      (C₂' : List Bridge) (res' : ResultT),
      (kruskal_step (S₁, res) e₁ >>= fun st => kruskal_step st e₂) = some (S₁', res') ∧
      (kruskal_step (S₂, res) e₂ >>= fun st => kruskal_step st e₁) = some (S₂', res') ∧
      Pack n S₁' C₁' ∧ Pack n S₂' C₂' ∧ ConnEquiv n C₁' C₂' ∧
      (∀ c, c ∈ C₁' → c ∈ C₁ ∨ c = e₁ ∨ c = e₂) ∧
      (∀ c, c ∈ C₂' → c ∈ C₂ ∨ c = e₁ ∨ c = e₂) := by
  by_cases c1 : Conn C₁ e₁.fr e₁.toN <;> by_cases c2 : Conn C₁ e₂.fr e₂.toN
  · -- both rejected in both orders
    rcases kruskal_step_pack n S₁ C₁ res e₁ h1 hf1 ht1 with ⟨-, hs11⟩ | ⟨hn, -⟩
    swap
    · exact absurd c1 hn
    rcases kruskal_step_pack n S₁ C₁ res e₂ h1 hf2 ht2 with ⟨-, hs12⟩ | ⟨hn, -⟩
    swap
    · exact absurd c2 hn
    rcases kruskal_step_pack n S₂ C₂ res e₂ h2 hf2 ht2 with ⟨-, hs22⟩ | ⟨hn, -⟩
    swap
    · exact absurd ((heq e₂.fr e₂.toN hf2 ht2).mp c2) hn
    rcases kruskal_step_pack n S₂ C₂ res e₁ h2 hf1 ht1 with ⟨-, hs21⟩ | ⟨hn, -⟩
    swap
    · exact absurd ((heq e₁.fr e₁.toN hf1 ht1).mp c1) hn
    refine ⟨S₁, C₁, S₂, C₂, res, ?_, ?_, h1, h2, heq,
      fun c hc => Or.inl hc, fun c hc => Or.inl hc⟩
    · rw [hs11]
      show kruskal_step (S₁, res) e₂ = some (S₁, res)
      exact hs12
    · rw [hs22]
      show kruskal_step (S₂, res) e₁ = some (S₂, res)
      exact hs21
  · -- e₁ rejected, e₂ accepted (in both orders)
    rcases kruskal_step_pack n S₁ C₁ res e₁ h1 hf1 ht1 with ⟨-, hs11⟩ | ⟨hn, -⟩
    swap
    · exact absurd c1 hn
    rcases kruskal_step_pack n S₁ C₁ res e₂ h1 hf2 ht2 with ⟨hcc, -⟩ | ⟨-, S₁', hs12, hp1⟩
    · exact absurd hcc c2
    rcases kruskal_step_pack n S₂ C₂ res e₂ h2 hf2 ht2 with ⟨hcc, -⟩ | ⟨-, S₂', hs22, hp2⟩
    · exact absurd hcc (fun h => c2 ((heq e₂.fr e₂.toN hf2 ht2).mpr h))
    have hc1' : Conn (e₂ :: C₂) e₁.fr e₁.toN :=
      conn_mono C₂ (e₂ :: C₂) (fun f hf => List.mem_cons_of_mem e₂ hf) _ _
        ((heq e₁.fr e₁.toN hf1 ht1).mp c1)
    rcases kruskal_step_pack n S₂' (e₂ :: C₂) (resAfter e₂ res) e₁ hp2 hf1 ht1 with
      ⟨-, hs21⟩ | ⟨hn, -⟩
    swap
    · exact absurd hc1' hn
    refine ⟨S₁', e₂ :: C₁, S₂', e₂ :: C₂, resAfter e₂ res, ?_, ?_, hp1, hp2,
      connEquiv_cons n C₁ C₂ e₂ heq hf2 ht2, ?_, ?_⟩
    · rw [hs11]
      show kruskal_step (S₁, res) e₂ = some (S₁', resAfter e₂ res)
      exact hs12
    · rw [hs22]
      show kruskal_step (S₂', resAfter e₂ res) e₁ = some (S₂', resAfter e₂ res)
      exact hs21
    · intro c hc
      rcases List.mem_cons.mp hc with rfl | hc'
      · exact Or.inr (Or.inr rfl)
      · exact Or.inl hc'
    · intro c hc
      rcases List.mem_cons.mp hc with rfl | hc'
      · exact Or.inr (Or.inr rfl)
      · exact Or.inl hc'
  · -- e₁ accepted, e₂ rejected (in both orders)
    rcases kruskal_step_pack n S₁ C₁ res e₁ h1 hf1 ht1 with ⟨hcc, -⟩ | ⟨-, S₁', hs11, hp1⟩
    · exact absurd hcc c1
    have hc2' : Conn (e₁ :: C₁) e₂.fr e₂.toN :=
      conn_mono C₁ (e₁ :: C₁) (fun f hf => List.mem_cons_of_mem e₁ hf) _ _ c2
    rcases kruskal_step_pack n S₁' (e₁ :: C₁) (resAfter e₁ res) e₂ hp1 hf2 ht2 with
      ⟨-, hs12⟩ | ⟨hn, -⟩
    swap
    · exact absurd hc2' hn
    rcases kruskal_step_pack n S₂ C₂ res e₂ h2 hf2 ht2 with ⟨-, hs22⟩ | ⟨hn, -⟩
    swap
    · exact absurd ((heq e₂.fr e₂.toN hf2 ht2).mp c2) hn
    rcases kruskal_step_pack n S₂ C₂ res e₁ h2 hf1 ht1 with ⟨hcc, -⟩ | ⟨-, S₂', hs21, hp2⟩
    · exact absurd hcc (fun h => c1 ((heq e₁.fr e₁.toN hf1 ht1).mpr h))
    refine ⟨S₁', e₁ :: C₁, S₂', e₁ :: C₂, resAfter e₁ res, ?_, ?_, hp1, hp2,
      connEquiv_cons n C₁ C₂ e₁ heq hf1 ht1, ?_, ?_⟩
    · rw [hs11]
      show kruskal_step (S₁', resAfter e₁ res) e₂ = some (S₁', resAfter e₁ res)
      exact hs12
    · rw [hs22]
      show kruskal_step (S₂, res) e₁ = some (S₂', resAfter e₁ res)
      exact hs21
    · intro c hc
      rcases List.mem_cons.mp hc with rfl | hc'
      · exact Or.inr (Or.inl rfl)
      · exact Or.inl hc'
    · intro c hc
      rcases List.mem_cons.mp hc with rfl | hc'
      · exact Or.inr (Or.inl rfl)
      · exact Or.inl hc'
  · -- neither connected beforehand
    rcases kruskal_step_pack n S₁ C₁ res e₁ h1 hf1 ht1 with ⟨hcc, -⟩ | ⟨-, S₁', hs11, hp1⟩
    · exact absurd hcc c1
    rcases kruskal_step_pack n S₂ C₂ res e₂ h2 hf2 ht2 with ⟨hcc, -⟩ | ⟨-, S₂', hs22, hp2⟩
    · exact absurd hcc (fun h => c2 ((heq e₂.fr e₂.toN hf2 ht2).mpr h))
    by_cases d : Conn (e₁ :: C₁) e₂.fr e₂.toN
    · -- the second bridge closes the cycle created by accepting the first
      have cross : (Conn C₁ e₂.fr e₁.fr ∧ Conn C₁ e₁.toN e₂.toN) ∨
          (Conn C₁ e₂.fr e₁.toN ∧ Conn C₁ e₁.fr e₂.toN) := by
        rcases (conn_cons_iff e₁ C₁ e₂.fr e₂.toN).mp d with h | h | h
        · exact absurd h c2
        · exact Or.inl h
        · exact Or.inr h
      rcases kruskal_step_pack n S₁' (e₁ :: C₁) (resAfter e₁ res) e₂ hp1 hf2 ht2 with
        ⟨-, hs12⟩ | ⟨hn, -⟩
      swap
      · exact absurd d hn
      have hc1' : Conn (e₂ :: C₂) e₁.fr e₁.toN := by
        rw [conn_cons_iff]
        rcases cross with ⟨u, v⟩ | ⟨u, v⟩
        · right; left
          exact ⟨(heq e₁.fr e₂.fr hf1 hf2).mp (Conn.symm _ _ _ u),
            (heq e₂.toN e₁.toN ht2 ht1).mp (Conn.symm _ _ _ v)⟩
        · right; right
          exact ⟨(heq e₁.fr e₂.toN hf1 ht2).mp v, (heq e₂.fr e₁.toN hf2 ht1).mp u⟩
      rcases kruskal_step_pack n S₂' (e₂ :: C₂) (resAfter e₂ res) e₁ hp2 hf1 ht1 with
        ⟨-, hs21⟩ | ⟨hn, -⟩
      swap
      · exact absurd hc1' hn
      refine ⟨S₁', e₁ :: C₁, S₂', e₂ :: C₂, resAfter e₁ res, ?_, ?_, hp1, hp2,
        connEquiv_swap_edge n C₁ C₂ e₁ e₂ heq hf1 ht1 hf2 ht2 cross, ?_, ?_⟩
      · rw [hs11]
        show kruskal_step (S₁', resAfter e₁ res) e₂ = some (S₁', resAfter e₁ res)
        exact hs12
      · rw [hs22]
        show kruskal_step (S₂', resAfter e₂ res) e₁ = some (S₂', resAfter e₁ res)
        rw [resAfter_congr e₁ e₂ res hcost]
        exact hs21
      · intro c hc
        rcases List.mem_cons.mp hc with rfl | hc'
        · exact Or.inr (Or.inl rfl)
        · exact Or.inl hc'
      · intro c hc
        rcases List.mem_cons.mp hc with rfl | hc'
        · exact Or.inr (Or.inr rfl)
        · exact Or.inl hc'
    · -- both bridges get accepted in both orders
      rcases kruskal_step_pack n S₁' (e₁ :: C₁) (resAfter e₁ res) e₂ hp1 hf2 ht2 with
        ⟨hcc, -⟩ | ⟨-, S₁'', hs12, hp1'⟩
      · exact absurd hcc d
      have hnd2 : ¬ Conn (e₂ :: C₂) e₁.fr e₁.toN := by
        intro h
        rcases (conn_cons_iff e₂ C₂ e₁.fr e₁.toN).mp h with h' | ⟨u, v⟩ | ⟨u, v⟩
        · exact c1 ((heq e₁.fr e₁.toN hf1 ht1).mpr h')
        · refine d ?_
          rw [conn_cons_iff]
          right; left
          exact ⟨Conn.symm _ _ _ ((heq e₁.fr e₂.fr hf1 hf2).mpr u),
            Conn.symm _ _ _ ((heq e₂.toN e₁.toN ht2 ht1).mpr v)⟩
        · refine d ?_
          rw [conn_cons_iff]
          right; right
          exact ⟨(heq e₂.fr e₁.toN hf2 ht1).mpr v, (heq e₁.fr e₂.toN hf1 ht2).mpr u⟩
      rcases kruskal_step_pack n S₂' (e₂ :: C₂) (resAfter e₂ res) e₁ hp2 hf1 ht1 with
        ⟨hcc, -⟩ | ⟨-, S₂'', hs21, hp2'⟩
      · exact absurd hcc hnd2
      have hequiv : ConnEquiv n (e₂ :: e₁ :: C₁) (e₁ :: e₂ :: C₂) := by
        intro a b ha hb
        rw [conn_perm (e₂ :: e₁ :: C₁) (e₁ :: e₂ :: C₁) (List.Perm.swap e₁ e₂ C₁) a b]
        exact connEquiv_cons n (e₂ :: C₁) (e₂ :: C₂) e₁
          (connEquiv_cons n C₁ C₂ e₂ heq hf2 ht2) hf1 ht1 a b ha hb
      refine ⟨S₁'', e₂ :: e₁ :: C₁, S₂'', e₁ :: e₂ :: C₂,
        resAfter e₂ (resAfter e₁ res), ?_, ?_, hp1', hp2', hequiv, ?_, ?_⟩
      · rw [hs11]
        show kruskal_step (S₁', resAfter e₁ res) e₂ = some (S₁'', resAfter e₂ (resAfter e₁ res))
        exact hs12
      · rw [hs22]
        show kruskal_step (S₂', resAfter e₂ res) e₁ = some (S₂'', resAfter e₂ (resAfter e₁ res))
        rw [resAfter_comm e₂ e₁ res]
        exact hs21
      · intro c hc
        rcases List.mem_cons.mp hc with rfl | hc'
        · exact Or.inr (Or.inr rfl)
        · rcases List.mem_cons.mp hc' with rfl | hc''
          · exact Or.inr (Or.inl rfl)
          · exact Or.inl hc''
      · intro c hc
        rcases List.mem_cons.mp hc with rfl | hc'
        · exact Or.inr (Or.inl rfl)
        · rcases List.mem_cons.mp hc' with rfl | hc''
          · exact Or.inr (Or.inr rfl)
          · exact Or.inl hc''

/-- Tie-reordered sequences drive the loop to the same totals from states
with the same partition. -/
theorem tie_loop (n : Nat) (l₁ l₂ : List Bridge) (hTR : TieReorder l₁ l₂) :
    ∀ (S₁ : List UFItem) (C₁ : List Bridge) (S₂ : List UFItem) (C₂ : List Bridge)
      (res : ResultT),
      (∀ e ∈ l₁, e.fr < n ∧ e.toN < n) →
      Pack n S₁ C₁ → Pack n S₂ C₂ → ConnEquiv n C₁ C₂ →
      (∀ c ∈ C₁, c.fr < n ∧ c.toN < n) → (∀ c ∈ C₂, c.fr < n ∧ c.toN < n) →
      ∃ (S₁' : List UFItem) (C₁' : List Bridge) (S₂' : List UFItem)
        (C₂' : List Bridge) (res' : ResultT),
        l₁.foldlM kruskal_step (S₁, res) = some (S₁', res') ∧
        l₂.foldlM kruskal_step (S₂, res) = some (S₂', res') ∧
        Pack n S₁' C₁' ∧ Pack n S₂' C₂' ∧ ConnEquiv n C₁' C₂' ∧
        (∀ c ∈ C₁', c.fr < n ∧ c.toN < n) ∧ (∀ c ∈ C₂', c.fr < n ∧ c.toN < n) := by
  induction hTR with
  | refl l =>
    intro S₁ C₁ S₂ C₂ res hwf h1 h2 heq hwc1 hwc2
    exact run_same n l S₁ C₁ S₂ C₂ res hwf h1 h2 heq hwc1 hwc2
  | cons x l₁ l₂ hTR ih =>
    intro S₁ C₁ S₂ C₂ res hwf h1 h2 heq hwc1 hwc2
    obtain ⟨hxfr, hxto⟩ := hwf x (List.mem_cons_self x l₁)
    obtain ⟨T₁, D₁, T₂, D₂, r1, hs1, hs2, q1, q2, qeq, m1, m2⟩ :=
      step_both n S₁ C₁ S₂ C₂ res x h1 h2 heq hxfr hxto
    have hwd1 : ∀ c ∈ D₁, c.fr < n ∧ c.toN < n := by
      intro c hc
      rcases m1 c hc with hc' | rfl
      · exact hwc1 c hc'
      · exact ⟨hxfr, hxto⟩
    have hwd2 : ∀ c ∈ D₂, c.fr < n ∧ c.toN < n := by
      intro c hc
      rcases m2 c hc with hc' | rfl
      · exact hwc2 c hc'
      · exact ⟨hxfr, hxto⟩
    obtain ⟨S₁', C₁', S₂', C₂', res', hf1, hf2, p1, p2, peq, w1, w2⟩ :=
      ih T₁ D₁ T₂ D₂ r1 (fun e he => hwf e (List.mem_cons_of_mem x he)) q1 q2 qeq hwd1 hwd2
    refine ⟨S₁', C₁', S₂', C₂', res', ?_, ?_, p1, p2, peq, w1, w2⟩
    · rw [List.foldlM_cons, hs1]
      exact hf1
    · rw [List.foldlM_cons, hs2]
      exact hf2
  | swap x y l hxy =>
    intro S₁ C₁ S₂ C₂ res hwf h1 h2 heq hwc1 hwc2
    obtain ⟨hxfr, hxto⟩ := hwf x (List.mem_cons_self x (y :: l))
    obtain ⟨hyfr, hyto⟩ := hwf y (List.mem_cons_of_mem x (List.mem_cons_self y l))
    have hwl : ∀ e ∈ l, e.fr < n ∧ e.toN < n :=
      fun e he => hwf e (List.mem_cons_of_mem x (List.mem_cons_of_mem y he))
    obtain ⟨T₁, D₁, T₂, D₂, r1, hpair1, hpair2, q1, q2, qeq, m1, m2⟩ :=
      swap_core n x y hxy hxfr hxto hyfr hyto S₁ C₁ S₂ C₂ res h1 h2 heq
    have hwd1 : ∀ c ∈ D₁, c.fr < n ∧ c.toN < n := by
      intro c hc
      rcases m1 c hc with hc' | rfl | rfl
      · exact hwc1 c hc'
      · exact ⟨hxfr, hxto⟩
      · exact ⟨hyfr, hyto⟩
    have hwd2 : ∀ c ∈ D₂, c.fr < n ∧ c.toN < n := by
      intro c hc
      rcases m2 c hc with hc' | rfl | rfl
      · exact hwc2 c hc'
      · exact ⟨hxfr, hxto⟩
      · exact ⟨hyfr, hyto⟩
    obtain ⟨S₁', C₁', S₂', C₂', res', hf1, hf2, p1, p2, peq, w1, w2⟩ :=
      run_same n l T₁ D₁ T₂ D₂ r1 hwl q1 q2 qeq hwd1 hwd2
    refine ⟨S₁', C₁', S₂', C₂', res', ?_, ?_, p1, p2, peq, w1, w2⟩
    · cases hfx : kruskal_step (S₁, res) x with
      | none => rw [hfx] at hpair1; exact Option.noConfusion hpair1
      | some st =>
        rw [hfx] at hpair1
        have hpair1' : kruskal_step st y = some (T₁, r1) := hpair1
        rw [List.foldlM_cons, hfx]
        show (y :: l).foldlM kruskal_step st = some (S₁', res')
        rw [List.foldlM_cons, hpair1']
        exact hf1
    · cases hfy : kruskal_step (S₂, res) y with
      | none => rw [hfy] at hpair2; exact Option.noConfusion hpair2
      | some st =>
        rw [hfy] at hpair2
        have hpair2' : kruskal_step st x = some (T₂, r1) := hpair2
        rw [List.foldlM_cons, hfy]
        show (x :: l).foldlM kruskal_step st = some (S₂', res')
        rw [List.foldlM_cons, hpair2']
        exact hf2
  | trans l₁ l₂ l₃ h12 h23 ih1 ih2 =>
    intro S₁ C₁ S₂ C₂ res hwf h1 h2 heq hwc1 hwc2
    obtain ⟨A₁, E₁, A₂, E₂, r, hfold1, hfold2a, pA1, pA2, eqE, wE1, wE2⟩ :=
      ih1 S₁ C₁ S₂ C₂ res hwf h1 h2 heq hwc1 hwc2
    have hwf2 : ∀ e ∈ l₂, e.fr < n ∧ e.toN < n :=
      fun e he => hwf e ((TieReorder.perm l₁ l₂ h12).mem_iff.mpr he)
    obtain ⟨B₂, F₂, B₃, F₃, r2, hfold2b, hfold3, pB2, pB3, eqF, wF2, wF3⟩ :=
      ih2 S₂ C₂ S₂ C₂ res hwf2 h2 h2 (fun a b _ _ => Iff.rfl) hwc2 hwc2
    have hmid : (A₂, r) = (B₂, r2) := Option.some_inj.mp (hfold2a.symm.trans hfold2b)
    rw [Prod.ext_iff] at hmid
    have hA : A₂ = B₂ := hmid.1
    have hr : r = r2 := hmid.2
    have pA2' : Pack n B₂ E₂ := hA ▸ pA2
    have eqMid : ConnEquiv n E₂ F₂ := connEquiv_of_packs n B₂ E₂ F₂ pA2' pB2
    refine ⟨A₁, E₁, B₃, F₃, r, hfold1, ?_, pA1, pB3, ?_, wE1, wF3⟩
    · rw [hr]
      exact hfold3
    · intro a b ha hb
      exact ((eqE a b ha hb).trans (eqMid a b ha hb)).trans (eqF a b ha hb)

/-- C4 (amended): two processing sequences that are permutations differing
only in the relative order of bridges of equal stored (tagged) cost — i.e.
equal true cost and equal color — drive the accumulation loop, started from
the freshly initialized disjoint-set state, to identical
red/blue totals. -/
theorem claim_C4_amended_tie_invariance (n : Nat) (l₁ l₂ : List Bridge)
    (hTR : TieReorder l₁ l₂) (hwf : ∀ e ∈ l₁, e.fr < n ∧ e.toN < n) :
    mst_accumulate n l₁ = mst_accumulate n l₂ := by
  have hpack : Pack n (uf_init n) [] := by
    refine ⟨length_uf_init n, UFInv_uf_init n, ?_⟩
    intro a b _ _
    rw [sameRoot_uf_init, conn_nil]
  obtain ⟨S₁', C₁', S₂', C₂', res', hf1, hf2, -, -, -, -, -⟩ :=
    tie_loop n l₁ l₂ hTR (uf_init n) [] (uf_init n) [] ⟨0, 0⟩ hwf hpack hpack
      (fun a b _ _ => Iff.rfl) (by intro c hc; exact absurd hc (List.not_mem_nil c))
      (by intro c hc; exact absurd hc (List.not_mem_nil c))
  unfold mst_accumulate
  rw [hf1, hf2]
  rfl

/-- Witness for the amended C4: two equal-cost blue bridges swapped. -/
theorem claim_C4_amended_tie_invariance_witness :
    mst_accumulate 3 [⟨0, 1, 5⟩, ⟨0, 2, 5⟩] = mst_accumulate 3 [⟨0, 2, 5⟩, ⟨0, 1, 5⟩] :=
  claim_C4_amended_tie_invariance 3 [⟨0, 1, 5⟩, ⟨0, 2, 5⟩] [⟨0, 2, 5⟩, ⟨0, 1, 5⟩]
    (TieReorder.swap ⟨0, 1, 5⟩ ⟨0, 2, 5⟩ [] rfl) (by decide)

/-- The connectivity setoid of an edge list on the islands `0, ..., n-1`. -/
def connSetoid (n : Nat) (es : List Bridge) : Setoid (Fin n) :=
  ⟨fun a b => Conn es a.val b.val,
   ⟨fun a => Conn.refl es a.val,
    fun h => Conn.symm es _ _ h,
    fun h1 h2 => Conn.trans es _ _ _ h1 h2⟩⟩

theorem conn_le_of_edges_conn (F G : List Bridge)
    (h : ∀ g ∈ G, Conn F g.fr g.toN) (a b : Nat) (hab : Conn G a b) : Conn F a b := by
  induction hab with
  | rel x y hxy =>
    obtain ⟨g, hg, ht⟩ := hxy
    rcases ht with ⟨h1, h2⟩ | ⟨h1, h2⟩
    · rw [← h1, ← h2]
      exact h g hg
    · rw [← h1, ← h2]
      exact Conn.symm F _ _ (h g hg)
  | refl x => exact Conn.refl F x
  | symm x y _ ih => exact Conn.symm F x y ih
  | trans x y z _ _ ih1 ih2 => exact Conn.trans F x y z ih1 ih2

theorem compCount_nil (n : Nat) : Nat.card (Quotient (connSetoid n [])) = n := by
  have e : Quotient (connSetoid n []) ≃ Fin n := by
    refine ⟨Quotient.lift (fun x => x) ?_, fun x => Quotient.mk _ x, ?_, ?_⟩
    · intro a b hab
      have h : Conn [] a.val b.val := hab
      exact Fin.ext ((conn_nil a.val b.val).mp h)
    · intro q
      induction q using Quotient.ind with
      | _ a => rfl
    · intro x
      rfl
  rw [Nat.card_congr e, Nat.card_eq_fintype_card, Fintype.card_fin]

theorem compCount_cons (n : Nat) (e : Bridge) (es : List Bridge)
    (hf : e.fr < n) (ht : e.toN < n) (hnc : ¬ Conn es e.fr e.toN) :
    Nat.card (Quotient (connSetoid n (e :: es))) + 1 =
      Nat.card (Quotient (connSetoid n es)) := by
  classical
  set r := connSetoid n es with hr
  set r' := connSetoid n (e :: es) with hr'
  have hmono : ∀ a b : Fin n, r a b → r' a b := by
    intro a b hab
    exact conn_mono es (e :: es) (fun f hfm => List.mem_cons_of_mem e hfm) a.val b.val hab
  let φ : Quotient r → Quotient r' :=
    Quotient.lift (fun x => Quotient.mk r' x) (fun a b hab => Quotient.sound (hmono a b hab))
  have hφ_mk : ∀ x : Fin n, φ (Quotient.mk r x) = Quotient.mk r' x := fun x => rfl
  have hφ_surj : Function.Surjective φ := by
    intro y
    induction y using Quotient.ind with
    | _ x => exact ⟨Quotient.mk r x, rfl⟩
  set fa : Fin n := ⟨e.fr, hf⟩ with hfa
  set fb : Fin n := ⟨e.toN, ht⟩ with hfb
  have hfiber : ∀ x y : Fin n, φ (Quotient.mk r x) = φ (Quotient.mk r y) ↔
      (Quotient.mk r x = Quotient.mk r y ∨
        (Quotient.mk r x = Quotient.mk r fa ∧ Quotient.mk r y = Quotient.mk r fb) ∨
        (Quotient.mk r x = Quotient.mk r fb ∧ Quotient.mk r y = Quotient.mk r fa)) := by
    intro x y
    rw [hφ_mk, hφ_mk]
    constructor
    · intro h
      have hc : Conn (e :: es) x.val y.val := Quotient.exact h
      rcases (conn_cons_iff e es x.val y.val).mp hc with h' | ⟨h1, h2⟩ | ⟨h1, h2⟩
      · exact Or.inl (Quotient.sound h')
      · right; left
        exact ⟨Quotient.sound h1, Quotient.sound (Conn.symm es _ _ h2)⟩
      · right; right
        exact ⟨Quotient.sound h1, Quotient.sound (Conn.symm es _ _ h2)⟩
    · intro h
      have hbase : Conn (e :: es) e.fr e.toN :=
        conn_of_mem (e :: es) e (List.mem_cons_self e es)
      have hup : ∀ u v : Fin n, Quotient.mk r u = Quotient.mk r v →
          Conn (e :: es) u.val v.val := by
        intro u v huv
        exact conn_mono es (e :: es) (fun f hfm => List.mem_cons_of_mem e hfm) _ _
          (Quotient.exact huv)
      rcases h with h' | ⟨h1, h2⟩ | ⟨h1, h2⟩
      · exact Quotient.sound (hup x y h')
      · refine Quotient.sound (Conn.trans _ _ _ _ (hup x fa h1)
          (Conn.trans _ _ _ _ hbase (Conn.symm _ _ _ (hup y fb h2))))
      · refine Quotient.sound (Conn.trans _ _ _ _ (hup x fb h1)
          (Conn.trans _ _ _ _ (Conn.symm _ _ _ hbase) (Conn.symm _ _ _ (hup y fa h2))))
  have hfafb : Quotient.mk r fb ≠ Quotient.mk r fa := by
    intro h
    exact hnc (Conn.symm es _ _ (Quotient.exact h))
  let ψ : {q : Quotient r // q ≠ Quotient.mk r fa} → Quotient r' := fun q => φ q.val
  have hψ_bij : Function.Bijective ψ := by
    constructor
    · rintro ⟨q₁, hq₁⟩ ⟨q₂, hq₂⟩ h
      induction q₁ using Quotient.ind with
      | _ x =>
        induction q₂ using Quotient.ind with
        | _ y =>
          have h' := (hfiber x y).mp h
          rcases h' with h'' | ⟨h1, -⟩ | ⟨-, h2⟩
          · exact Subtype.ext h''
          · exact absurd h1 hq₁
          · exact absurd h2 hq₂
    · intro y
      obtain ⟨q, hq⟩ := hφ_surj y
      induction q using Quotient.ind with
      | _ x =>
        by_cases hx : Quotient.mk r x = Quotient.mk r fa
        · refine ⟨⟨Quotient.mk r fb, hfafb⟩, ?_⟩
          show φ (Quotient.mk r fb) = y
          rw [← hq]
          refine ((hfiber fb x).mpr ?_).symm.symm
          · right; right
            exact ⟨rfl, hx⟩
        · exact ⟨⟨Quotient.mk r x, hx⟩, hq⟩
  have hcards : Nat.card {q : Quotient r // q ≠ Quotient.mk r fa} = Nat.card (Quotient r') :=
    Nat.card_congr (Equiv.ofBijective ψ hψ_bij)
  have hft : Fintype (Quotient r) := Fintype.ofFinite _
  have hsub : Nat.card {q : Quotient r // q ≠ Quotient.mk r fa} =
      Nat.card (Quotient r) - 1 := by
    rw [Nat.card_eq_fintype_card, Nat.card_eq_fintype_card]
    rw [Fintype.card_subtype_compl fun q => q = Quotient.mk r fa]
    rw [Fintype.card_subtype_eq (Quotient.mk r fa)]
  have hpos : 1 ≤ Nat.card (Quotient r) := by
    have : Nonempty (Quotient r) := ⟨Quotient.mk r fa⟩
    have hfin : Nat.card (Quotient r) ≠ 0 := by
      rw [Nat.card_eq_fintype_card]
      exact Fintype.card_ne_zero
    omega
  omega

theorem forest_card (n : Nat) (F : List Bridge) (hforest : IsForest F)
    (hwf : ∀ e ∈ F, e.fr < n ∧ e.toN < n) :
    F.length + Nat.card (Quotient (connSetoid n F)) = n := by
  induction hforest with
  | nil =>
    simpa using compCount_nil n
  | cons e es hes hnc ih =>
    obtain ⟨hf, ht⟩ := hwf e (List.mem_cons_self e es)
    have h1 := compCount_cons n e es hf ht hnc
    have h2 := ih (fun f hfm => hwf f (List.mem_cons_of_mem e hfm))
    simp only [List.length_cons]
    omega

theorem compCount_le_of_refine (n : Nat) (F G : List Bridge)
    (h : ∀ g ∈ G, Conn F g.fr g.toN) :
    Nat.card (Quotient (connSetoid n F)) ≤ Nat.card (Quotient (connSetoid n G)) := by
  classical
  have hmono : ∀ a b : Fin n, connSetoid n G a b → connSetoid n F a b := by
    intro a b hab
    exact conn_le_of_edges_conn F G h a.val b.val hab
  let ψ : Quotient (connSetoid n G) → Quotient (connSetoid n F) :=
    Quotient.lift (fun x => Quotient.mk (connSetoid n F) x)
      (fun a b hab => Quotient.sound (hmono a b hab))
  have hsurj : Function.Surjective ψ := by
    intro y
    induction y using Quotient.ind with
    | _ x => exact ⟨Quotient.mk (connSetoid n G) x, rfl⟩
  exact Nat.card_le_card_of_surjective ψ hsurj

/-- The exchange inequality for forests: if every edge of the forest `G` lies
within a connected component of the forest `F`, then `G` has at most as many
edges as `F`. -/
theorem forest_length_le (n : Nat) (F G : List Bridge)
    (hF : IsForest F) (hG : IsForest G)
    (hwfF : ∀ e ∈ F, e.fr < n ∧ e.toN < n) (hwfG : ∀ e ∈ G, e.fr < n ∧ e.toN < n)
    (h : ∀ g ∈ G, Conn F g.fr g.toN) : G.length ≤ F.length := by
  have h1 := forest_card n F hF hwfF
  have h2 := forest_card n G hG hwfG
  have h3 := compCount_le_of_refine n F G h
  omega

theorem IsForest.of_cons (e : Bridge) (es : List Bridge) (h : IsForest (e :: es)) :
    IsForest es ∧ ¬ Conn es e.fr e.toN := by
  cases h with
  | cons e es hes hnc => exact ⟨hes, hnc⟩

theorem forest_of_sublist (l s : List Bridge) (h : IsForest l) (hs : s.Sublist l) :
    IsForest s := by
  induction h generalizing s with
  | nil =>
    rw [List.sublist_nil.mp hs]
    exact IsForest.nil
  | cons e es hes hnc ih =>
    rcases List.sublist_cons_iff.mp hs with hs' | ⟨t, rfl, ht⟩
    · exact ih s hs'
    · refine IsForest.cons e t (ih t ht) ?_
      intro hconn
      exact hnc (conn_mono t es (fun f hf => ht.subset hf) _ _ hconn)

theorem forest_of_perm (l₁ l₂ : List Bridge) (h : IsForest l₁) (hp : l₁.Perm l₂) :
    IsForest l₂ := by
  induction hp with
  | nil => exact h
  | cons x hp' ih =>
    obtain ⟨hes, hnc⟩ := IsForest.of_cons _ _ h
    refine IsForest.cons x _ (ih hes) ?_
    intro hconn
    exact hnc ((conn_perm _ _ hp'.symm _ _).mp hconn)
  | swap x y l =>
    obtain ⟨h1, hncx⟩ := IsForest.of_cons _ _ h
    obtain ⟨h2, hncy⟩ := IsForest.of_cons _ _ h1
    refine IsForest.cons x _ (IsForest.cons y _ h2 ?_) ?_
    · intro hconn
      exact hncx (conn_mono l (x :: l) (fun f hf => List.mem_cons_of_mem x hf) _ _ hconn)
    · intro hconn
      rcases (conn_cons_iff y l x.fr x.toN).mp hconn with h' | ⟨u, v⟩ | ⟨u, v⟩
      · exact hncy h'
      · refine hncx ?_
        rw [conn_cons_iff]
        right; left
        exact ⟨Conn.symm l _ _ u, Conn.symm l _ _ v⟩
      · refine hncx ?_
        rw [conn_cons_iff]
        right; right
        exact ⟨v, u⟩
  | trans hp1 hp2 ih1 ih2 =>
    exact ih2 (ih1 h)

theorem forest_of_subperm (l s : List Bridge) (h : IsForest l) (hs : s.Subperm l) :
    IsForest s := by
  obtain ⟨t, hperm, hsub⟩ := hs
  exact forest_of_perm t s (forest_of_sublist l t h hsub) hperm

theorem sum_map_filter_split (l : List Bridge) (f : Bridge → Nat) (p : Bridge → Bool) :
    (l.map f).sum = ((l.filter p).map f).sum + ((l.filter fun x => ! p x).map f).sum := by
  induction l with
  | nil => simp
  | cons x xs ih =>
    by_cases hx : p x
    · rw [List.map_cons, List.sum_cons, List.filter_cons_of_pos hx,
        List.filter_cons_of_neg (by simpa using hx), List.map_cons, List.sum_cons, ih]
      omega
    · rw [List.map_cons, List.sum_cons, List.filter_cons_of_neg (by simpa using hx),
        List.filter_cons_of_pos (by simpa using hx), List.map_cons, List.sum_cons, ih]
      omega

theorem taggedWeight_eq_layers (K : Nat) (X : List Bridge) (h : ∀ x ∈ X, x.cost ≤ K) :
    taggedWeight X =
      ∑ t ∈ Finset.range K, (X.filter fun b => decide (t + 1 ≤ b.cost)).length := by
  induction X with
  | nil => simp [taggedWeight]
  | cons x xs ih =>
    have hx : x.cost ≤ K := h x (List.mem_cons_self x xs)
    have hxs : ∀ y ∈ xs, y.cost ≤ K := fun y hy => h y (List.mem_cons_of_mem x hy)
    have hsplit : ∀ t, ((x :: xs).filter fun b => decide (t + 1 ≤ b.cost)).length =
        (if t + 1 ≤ x.cost then 1 else 0) +
          (xs.filter fun b => decide (t + 1 ≤ b.cost)).length := by
      intro t
      rw [List.filter_cons]
      by_cases hc : t + 1 ≤ x.cost
      · simp [hc]
        omega
      · simp [hc]
    rw [Finset.sum_congr rfl (fun t _ => hsplit t), Finset.sum_add_distrib, ← ih hxs]
    have hone : ∑ t ∈ Finset.range K, (if t + 1 ≤ x.cost then 1 else 0) = x.cost := by
      have h1 : (Finset.range K).filter (fun t => t + 1 ≤ x.cost) = Finset.range x.cost := by
        ext t
        simp only [Finset.mem_filter, Finset.mem_range]
        omega
      rw [← Finset.sum_filter, h1]
      simp
    rw [hone]
    show (List.map (fun b => b.cost) (x :: xs)).sum = x.cost + taggedWeight xs
    rw [List.map_cons, List.sum_cons]
    rfl

/-- Greedy optimality: the accepted forest of `solve` has maximum tagged
weight among all acyclic sub-multisets of the input.  The proof compares, for
every cost threshold, the number of accepted bridges above the threshold with
the number any competing forest can have above it (the exchange inequality),
and sums over thresholds. -/
theorem greedy_tagged_max (n : Nat) (bs A : List Bridge)
    (hwfbs : ∀ b ∈ bs, b.fr < n ∧ b.toN < n) (hcost : ∀ b ∈ bs, b.cost < 65536)
    (hA : IsForest A) (hAsub : A.Subperm bs)
    (hspan : ∀ x ∈ bs, Conn (A.filter fun c => decide (x.cost ≤ c.cost)) x.fr x.toN)
    (B : List Bridge) (hB : IsForest B) (hBsub : B.Subperm bs) :
    taggedWeight B ≤ taggedWeight A := by
  have key : ∀ t, (B.filter fun b => decide (t + 1 ≤ b.cost)).length ≤
      (A.filter fun b => decide (t + 1 ≤ b.cost)).length := by
    intro t
    refine forest_length_le n (A.filter fun b => decide (t + 1 ≤ b.cost))
      (B.filter fun b => decide (t + 1 ≤ b.cost))
      (forest_of_sublist A _ hA (List.filter_sublist A))
      (forest_of_sublist B _ hB (List.filter_sublist B)) ?_ ?_ ?_
    · intro e he
      exact hwfbs e (hAsub.subset ((List.filter_sublist A).subset he))
    · intro e he
      exact hwfbs e (hBsub.subset ((List.filter_sublist B).subset he))
    · intro g hg
      have hgB : g ∈ B := (List.mem_filter.mp hg).1
      have hgcost : t + 1 ≤ g.cost := by simpa using (List.mem_filter.mp hg).2
      have h1 := hspan g (hBsub.subset hgB)
      refine conn_mono _ _ ?_ _ _ h1
      intro f hf
      have hfA : f ∈ A := (List.mem_filter.mp hf).1
      have hfcost : g.cost ≤ f.cost := by simpa using (List.mem_filter.mp hf).2
      refine List.mem_filter.mpr ⟨hfA, ?_⟩
      simp only [decide_eq_true_eq]
      omega
  rw [taggedWeight_eq_layers 65536 B
      (fun y hy => Nat.le_of_lt (hcost y (hBsub.subset hy))),
    taggedWeight_eq_layers 65536 A
      (fun y hy => Nat.le_of_lt (hcost y (hAsub.subset hy)))]
  exact Finset.sum_le_sum (fun t _ => key t)

/-- C1 (amended): the accepted bridge set of `solve` is a maximum spanning
forest for the STORED (tagged) costs — under which every red bridge outranks
every blue one — and the two returned totals sum to the true (tag-free)
weight of that forest. -/
theorem claim_C1_amended_max_tagged_forest (n : Nat) (bs : List Bridge)
    (hn : 1 ≤ n) (hwf : ∀ b ∈ bs, WFBridge n b) :
    ∃ (res : ResultT) (A : List Bridge),
      solve n bs = some res ∧
      A.Subperm bs ∧ IsForest A ∧
      IsMaxTaggedForestWeight bs (taggedWeight A) ∧
      res.red + res.blue = trueWeight A := by
  have hwf' : ∀ b ∈ bs, b.fr < n ∧ b.toN < n := fun b hb => ⟨(hwf b hb).1, (hwf b hb).2.1⟩
  have hcost : ∀ b ∈ bs, b.cost < 65536 := fun b hb => WFBridge.cost_lt n b (hwf b hb)
  obtain ⟨D, res, hsolve, hred, hblue, hforest, hsub, hspan⟩ := solve_spec n bs hwf' hcost
  refine ⟨res, D, hsolve, hsub, hforest, ⟨⟨D, hsub, hforest, rfl⟩, ?_⟩, ?_⟩
  · intro B hBsub hBforest
    exact greedy_tagged_max n bs D hwf' hcost hforest hsub hspan B hBforest hBsub
  · rw [hred, hblue, blueAdd_eq_trueSum D
      (fun b hb => (hwf b (hsub.subset hb)).2.2.2.2)]
    exact (sum_map_filter_split D trueCost (fun b => isRed b)).symm

/-- Witness for the amended C1 on the spec's concrete scenario. -/
theorem claim_C1_amended_max_tagged_forest_witness :
    ∃ (res : ResultT) (A : List Bridge),
      solve 4 [⟨0, 1, 16389⟩, ⟨1, 2, 3⟩, ⟨2, 3, 16392⟩, ⟨0, 3, 1⟩] = some res ∧
      A.Subperm [⟨0, 1, 16389⟩, ⟨1, 2, 3⟩, ⟨2, 3, 16392⟩, ⟨0, 3, 1⟩] ∧ IsForest A ∧
      IsMaxTaggedForestWeight [⟨0, 1, 16389⟩, ⟨1, 2, 3⟩, ⟨2, 3, 16392⟩, ⟨0, 3, 1⟩]
        (taggedWeight A) ∧
      res.red + res.blue = trueWeight A :=
  claim_C1_amended_max_tagged_forest 4 [⟨0, 1, 16389⟩, ⟨1, 2, 3⟩, ⟨2, 3, 16392⟩, ⟨0, 3, 1⟩]
    (by decide) (by decide)
